import Mathlib

set_option maxRecDepth 1000000

/-!
Verification of the buddy allocator in `src/buddy.c`.

The embedding is a faithful shallow model of the C file:

* Addresses are byte offsets from `g_memory` (the arena base), so `NULL`
  failure results become `Option.none` and `page->mem` becomes
  `pageToAddr page->index`.
* The intrusive `struct list_head` machinery from `list.h` is modeled by
  keeping, per order, the list of page indices linked into `free_area[o]`
  (head first, since `list_add` inserts right after the head and
  `buddy_alloc` takes `free_area[i].next`), together with a per-page flag
  `nodeUnlinked` recording the value of `list_empty(&page->list)`:
  it is `false` for the zero-initialized node (whose `next` is `NULL`),
  becomes `true` after `list_del_init` (the node then points to itself),
  and becomes `false` again after `list_add`.  A node is linked into at
  most one list at any time in the C program, so `list_del_init` is
  modeled as erasing the index from every per-order list.
* C `int` values that can be negative (`size`, the `order` field with its
  `-1` initial value) are modeled as `Int`; all arithmetic in the file
  stays far below `2^31`, so machine overflow never occurs and plain
  integers are exact.
* The loops of `orderFor`, `split`, `buddy_alloc` and `buddy_free` are
  bounded by the constant order range; each is translated with an explicit
  iteration-count argument equal to the number of remaining loop
  iterations, which makes every definition structurally recursive and
  hence computable by the kernel.
-/

open scoped List

namespace BuddyAlloc

/-- MIN_ORDER from buddy.c line 25. -/
def MIN_ORDER : Nat := 12

/-- MAX_ORDER from buddy.c line 26. -/
def MAX_ORDER : Nat := 20

/-- PAGE_SIZE (1 << MIN_ORDER) from buddy.c line 28. -/
def PAGE_SIZE : Nat := 2 ^ MIN_ORDER

/-- Number of entries of g_pages, buddy.c line 72: (1 << MAX_ORDER) / PAGE_SIZE = 256. -/
def N_PAGES : Nat := 2 ^ MAX_ORDER / PAGE_SIZE

/-- PAGE_TO_ADDR from buddy.c line 30 (addresses are byte offsets from g_memory). -/
def pageToAddr (i : Nat) : Nat := i * PAGE_SIZE

/-- ADDR_TO_PAGE from buddy.c line 33. -/
def addrToPage (a : Nat) : Nat := a / PAGE_SIZE

/-- BUDDY_ADDR from buddy.c line 36: offset XOR (1 << o). -/
def buddyAddr (a : Nat) (o : Nat) : Nat := a ^^^ 2 ^ o

/-- Page index of the buddy of the block based at page i, at order o:
ADDR_TO_PAGE(BUDDY_ADDR(PAGE_TO_ADDR(i), o)) as in buddy.c lines 95 and 184. -/
def buddyIdx (i : Nat) (o : Nat) : Nat := addrToPage (buddyAddr (pageToAddr i) o)

/-- Allocator state.  `pageOrder i` models `g_pages[i].order`; `nodeUnlinked i`
models `list_empty(&g_pages[i].list)`; `freeArea o` models the chain of
`free_area[o]` (head first).  The fields `g_pages[i].index` and
`g_pages[i].mem` are set once by `buddy_init` to `i` and `PAGE_TO_ADDR(i)` and
never written again, so they are modeled as the computed values. -/
structure BuddyState where
  pageOrder : List Int
  nodeUnlinked : List Bool
  freeArea : List (List Nat)
deriving DecidableEq

/-- list_add(&g_pages[i].list, &free_area[o]): push i at the front of free
list o; the node becomes linked (list_empty turns false). -/
def listAdd (s : BuddyState) (i o : Nat) : BuddyState :=
  { s with freeArea := s.freeArea.set o (i :: s.freeArea.getD o []),
           nodeUnlinked := s.nodeUnlinked.set i false }

/-- list_del_init(&g_pages[i].list): unlink i from the (unique) free list
containing it and leave the node self-looped, so list_empty becomes true. -/
def listDelInit (s : BuddyState) (i : Nat) : BuddyState :=
  { s with freeArea := s.freeArea.map (fun l => l.erase i),
           nodeUnlinked := s.nodeUnlinked.set i true }

/-- Assignment `g_pages[i].order = o`. -/
def setOrder (s : BuddyState) (i : Nat) (o : Int) : BuddyState :=
  { s with pageOrder := s.pageOrder.set i o }

/-- Loop of orderFor (buddy.c lines 83-86).  `fuel` is the number of remaining
iterations, so a call with fuel = MAX_ORDER + 1 - order mirrors the loop
condition `order <= MAX_ORDER`; the test is `(1 << order) >= size`. -/
def orderGo (size : Int) : Nat → Nat → Int
  | 0, _ => -1
  | fuel+1, order => if size ≤ 2 ^ order then (order : Int) else orderGo size fuel (order + 1)

/-- orderFor from buddy.c lines 81-88. -/
def orderFor (size : Int) : Int := orderGo size (MAX_ORDER + 1 - MIN_ORDER) MIN_ORDER

/-- Loop of split (buddy.c lines 92-99): one iteration decrements
current_order to `t + n` and pushes the buddy of page i at that order, first
writing its order field.  `n` plays the role of current_order - target_order.
-/
def splitGo (s : BuddyState) (i t : Nat) : Nat → BuddyState
  | 0 => s
  | n+1 =>
    let co := t + n
    let b := buddyIdx i co
    splitGo (listAdd (setOrder s b (co : Int)) b co) i t n

/-- split from buddy.c lines 90-100. -/
def split (s : BuddyState) (i currentOrder targetOrder : Nat) : BuddyState :=
  splitGo s i targetOrder (currentOrder - targetOrder)

/-- buddy_init from buddy.c lines 105-124: every order field starts at -1,
all free lists are empty except free_area[MAX_ORDER] = [page 0] (the C code
does not write g_pages[0].order there, so it stays -1). -/
def buddy_init : BuddyState :=
  { pageOrder := List.replicate N_PAGES (-1),
    nodeUnlinked := List.replicate N_PAGES false,
    freeArea := (List.replicate (MAX_ORDER + 1) ([] : List Nat)).set MAX_ORDER [0] }

/-- Scan loop of buddy_alloc (buddy.c lines 145-164); i is the order being
inspected and fuel = MAX_ORDER + 1 - i the number of remaining iterations.
The head of a nonempty `freeArea i` is the page produced by
`list_entry(free_area[i].next, page_t, list)`. -/
def allocGo (s : BuddyState) (order : Nat) : Nat → Nat → Option Nat × BuddyState
  | _, 0 => (none, s)
  | i, fuel+1 =>
    match s.freeArea.getD i [] with
    | [] => allocGo s order (i+1) fuel
    | idx :: _ =>
      if i = order then
        (some (pageToAddr idx), setOrder (listDelInit s idx) idx (order : Int))
      else
        (some (pageToAddr idx), setOrder (split (listDelInit s idx) idx i order) idx (order : Int))

/-- buddy_alloc from buddy.c lines 140-167; the returned address is
`page->mem` and the failure result NULL is `none`. -/
def buddy_alloc (s : BuddyState) (size : Int) : Option Nat × BuddyState :=
  let order := orderFor size
  if order = -1 then (none, s)
  else allocGo s order.toNat order.toNat (MAX_ORDER + 1 - order.toNat)

/-- Coalescing loop of buddy_free (buddy.c lines 182-193); fuel =
MAX_ORDER - ord.  The loop merges while `buddy->order == order` and
`!list_empty(&buddy->list)`, keeping the lower-address page (the pointer
comparison `buddy < page` is the index comparison). -/
def freeGo : Nat → BuddyState → Nat → Nat → BuddyState × Nat × Nat
  | 0, s, p, ord => (s, p, ord)
  | fuel+1, s, p, ord =>
    let b := buddyIdx p ord
    if s.pageOrder.getD b (-1) = (ord : Int) ∧ s.nodeUnlinked.getD b false = false then
      freeGo fuel (listDelInit s b) (min b p) (ord + 1)
    else (s, p, ord)

/-- buddy_free from buddy.c lines 178-196.  For any well-behaved call the
order read back from the descriptor is in [MIN_ORDER, MAX_ORDER] (it was
stored there by buddy_alloc); a negative value would make the C code shift by
a negative amount, which is undefined, so the model reads it with `Int.toNat`.
-/
def buddy_free (s : BuddyState) (addr : Nat) : BuddyState :=
  let p := addrToPage addr
  let ord := (s.pageOrder.getD p (-1)).toNat
  let r := freeGo (MAX_ORDER - ord) s p ord
  listAdd (setOrder r.1 r.2.1 (r.2.2 : Int)) r.2.1 r.2.2

/-- Reachable allocator states, paired with the ghost list of live
allocations.  Callers are well-behaved: buddy_free is only applied to an
address previously returned by buddy_alloc and not yet freed. -/
inductive Reach : BuddyState → List (Nat × Nat) → Prop
  | init : Reach buddy_init []
  | allocOk (s : BuddyState) (A : List (Nat × Nat)) (size : Int) (a : Nat)
      (s' : BuddyState) :
      Reach s A → buddy_alloc s size = (some a, s') →
      Reach s' ((addrToPage a, (orderFor size).toNat) :: A)
  | allocFail (s : BuddyState) (A : List (Nat × Nat)) (size : Int)
      (s' : BuddyState) :
      Reach s A → buddy_alloc s size = (none, s') → Reach s' A
  | free (s : BuddyState) (A : List (Nat × Nat)) (i o : Nat) :
      Reach s A → (i, o) ∈ A →
      Reach (buddy_free s (pageToAddr i)) (A.erase (i, o))

/-- The state components keep the sizes fixed by the C arrays: 256 page
descriptors and MAX_ORDER + 1 free-list heads. -/
def Dims (s : BuddyState) : Prop :=
  s.pageOrder.length = N_PAGES ∧ s.nodeUnlinked.length = N_PAGES ∧
  s.freeArea.length = MAX_ORDER + 1

/-- A block is a pair (base page, order); it covers the pages
[base, base + 2^(order - MIN_ORDER)).  `covers` tests whether a given page
lies in the block. -/
def covers (b : Nat × Nat) (pg : Nat) : Bool :=
  decide (b.1 ≤ pg ∧ pg < b.1 + 2 ^ (b.2 - MIN_ORDER))

/-- A well-formed block: order within range, base naturally aligned to the
block size, block inside the arena. -/
def goodBlock (b : Nat × Nat) : Prop :=
  MIN_ORDER ≤ b.2 ∧ b.2 ≤ MAX_ORDER ∧ 2 ^ (b.2 - MIN_ORDER) ∣ b.1 ∧
  b.1 + 2 ^ (b.2 - MIN_ORDER) ≤ N_PAGES

/-- The multiset (as a list) of free blocks: one entry (i, o) per page i
linked into free_area[o]. -/
def freeBlocks (s : BuddyState) : List (Nat × Nat) :=
  (List.range (MAX_ORDER+1)).flatMap
    (fun o => (s.freeArea.getD o []).map (fun i => (i, o)))

/-- Invariant of any reachable state with ghost allocation list A (except
the freshly initialized state, where page 0 sits in free_area[MAX_ORDER]
while its order field still holds -1).

Fields:
* `dims`: array sizes are fixed;
* `goodFree`/`goodAlloc`: every free and every allocated block is order-valid,
  naturally aligned and inside the arena;
* `partition`: every page of the arena is covered by exactly one block among
  the free-list blocks and the outstanding allocations;
* `listedOrder`: a page linked into free_area[o] has order field o and a
  linked node;
* `soundFlag`: conversely, a page whose node is linked and whose order field
  holds o is actually in free_area[o] — this is what makes the buddy check of
  buddy_free sound;
* `allocFlag`: an outstanding allocation keeps its order in its descriptor
  and its node unlinked;
* `maxCo`: complete coalescing — no two buddies are simultaneously free at
  the same order below MAX_ORDER. -/
structure Inv (s : BuddyState) (A : List (Nat × Nat)) : Prop where
  dims : Dims s
  goodFree : ∀ b ∈ freeBlocks s, goodBlock b
  goodAlloc : ∀ b ∈ A, goodBlock b
  partition : ∀ pg, pg < N_PAGES →
    (freeBlocks s ++ A).countP (fun b => covers b pg) = 1
  listedOrder : ∀ o, o ≤ MAX_ORDER → ∀ i ∈ s.freeArea.getD o [],
    s.pageOrder.getD i (-1) = (o : Int) ∧ s.nodeUnlinked.getD i false = false
  soundFlag : ∀ i, i < N_PAGES → ∀ o : Nat, s.nodeUnlinked.getD i false = false →
    s.pageOrder.getD i (-1) = (o : Int) → i ∈ s.freeArea.getD o []
  allocFlag : ∀ b ∈ A, s.pageOrder.getD b.1 (-1) = (b.2 : Int) ∧
    s.nodeUnlinked.getD b.1 false = true
  maxCo : ∀ o, o < MAX_ORDER → ∀ i ∈ s.freeArea.getD o [],
    buddyIdx i o ∉ s.freeArea.getD o []
  nodupFree : ∀ o, o ≤ MAX_ORDER → (s.freeArea.getD o []).Nodup

/-- Invariant during an alloc split chain or a free coalescing chain: one
block (p, ord) is "in hand" — not on any free list, not recorded in A — and
together with the free blocks and A it partitions the arena. -/
structure InvMid (s : BuddyState) (A : List (Nat × Nat)) (p ord : Nat) : Prop where
  dims : Dims s
  goodFree : ∀ b ∈ freeBlocks s, goodBlock b
  goodAlloc : ∀ b ∈ A, goodBlock b
  goodHand : goodBlock (p, ord)
  handUnlinked : s.nodeUnlinked.getD p false = true
  partition : ∀ pg, pg < N_PAGES →
    (freeBlocks s ++ A).countP (fun b => covers b pg) +
      (if covers (p, ord) pg then 1 else 0) = 1
  listedOrder : ∀ o, o ≤ MAX_ORDER → ∀ i ∈ s.freeArea.getD o [],
    s.pageOrder.getD i (-1) = (o : Int) ∧ s.nodeUnlinked.getD i false = false
  soundFlag : ∀ i, i < N_PAGES → ∀ o : Nat, s.nodeUnlinked.getD i false = false →
    s.pageOrder.getD i (-1) = (o : Int) → i ∈ s.freeArea.getD o []
  allocFlag : ∀ b ∈ A, s.pageOrder.getD b.1 (-1) = (b.2 : Int) ∧
    s.nodeUnlinked.getD b.1 false = true
  maxCo : ∀ o, o < MAX_ORDER → ∀ i ∈ s.freeArea.getD o [],
    buddyIdx i o ∉ s.freeArea.getD o []
  nodupFree : ∀ o, o ≤ MAX_ORDER → (s.freeArea.getD o []).Nodup

/-- Base of the dyadic block of order q containing page p. -/
def alignB (p q : Nat) : Nat := 2 ^ (q - MIN_ORDER) * (p / 2 ^ (q - MIN_ORDER))


/-! ### Basic list access lemmas -/

/-- Reading the written cell of `List.set`. -/
theorem getD_set_self {α : Type} {l : List α} {i : Nat} (a d : α) (h : i < l.length) :
    (l.set i a).getD i d = a := by
  simp [List.getD_eq_getElem?_getD, List.getElem?_set_self h]

/-- Reading another cell of `List.set`. -/
theorem getD_set_ne {α : Type} {l : List α} {i j : Nat} (a d : α) (h : i ≠ j) :
    (l.set i a).getD j d = l.getD j d := by
  simp [List.getD_eq_getElem?_getD, List.getElem?_set_ne h]

/-- Erasing an element in every bucket commutes with reading one bucket. -/
theorem getD_map_erase {α : Type} [DecidableEq α] (l : List (List α)) (x : α) (o : Nat) :
    ((l.map (fun t => t.erase x)).getD o []) = (l.getD o []).erase x := by
  simp only [List.getD_eq_getElem?_getD, List.getElem?_map]
  cases l[o]? <;> simp

/-- Reading a cell of `List.replicate`. -/
theorem getD_replicate {α : Type} (n : Nat) (a d : α) (o : Nat) :
    ((List.replicate n a).getD o d) = if o < n then a else d := by
  simp only [List.getD_eq_getElem?_getD, List.getElem?_replicate]
  split <;> simp

/-! ### The state components touched by each primitive operation -/

theorem listAdd_pageOrder (s : BuddyState) (i o : Nat) :
    (listAdd s i o).pageOrder = s.pageOrder := rfl

theorem listAdd_freeArea_self (s : BuddyState) (i o : Nat) (h : o < s.freeArea.length) :
    (listAdd s i o).freeArea.getD o [] = i :: s.freeArea.getD o [] :=
  getD_set_self _ _ h

theorem listAdd_freeArea_ne (s : BuddyState) (i o q : Nat) (h : o ≠ q) :
    (listAdd s i o).freeArea.getD q [] = s.freeArea.getD q [] :=
  getD_set_ne _ _ h

theorem listAdd_unlinked_self (s : BuddyState) (i o : Nat) (h : i < s.nodeUnlinked.length) :
    (listAdd s i o).nodeUnlinked.getD i false = false :=
  getD_set_self _ _ h

theorem listAdd_unlinked_ne (s : BuddyState) (i o j : Nat) (h : i ≠ j) :
    (listAdd s i o).nodeUnlinked.getD j false = s.nodeUnlinked.getD j false :=
  getD_set_ne _ _ h

theorem listDelInit_pageOrder (s : BuddyState) (i : Nat) :
    (listDelInit s i).pageOrder = s.pageOrder := rfl

theorem listDelInit_freeArea (s : BuddyState) (i q : Nat) :
    (listDelInit s i).freeArea.getD q [] = (s.freeArea.getD q []).erase i :=
  getD_map_erase _ _ _

theorem listDelInit_unlinked_self (s : BuddyState) (i : Nat) (h : i < s.nodeUnlinked.length) :
    (listDelInit s i).nodeUnlinked.getD i false = true :=
  getD_set_self _ _ h

theorem listDelInit_unlinked_ne (s : BuddyState) (i j : Nat) (h : i ≠ j) :
    (listDelInit s i).nodeUnlinked.getD j false = s.nodeUnlinked.getD j false :=
  getD_set_ne _ _ h

theorem setOrder_freeArea (s : BuddyState) (i : Nat) (o : Int) :
    (setOrder s i o).freeArea = s.freeArea := rfl

theorem setOrder_unlinked (s : BuddyState) (i : Nat) (o : Int) :
    (setOrder s i o).nodeUnlinked = s.nodeUnlinked := rfl

theorem setOrder_pageOrder_self (s : BuddyState) (i : Nat) (o : Int)
    (h : i < s.pageOrder.length) :
    (setOrder s i o).pageOrder.getD i (-1) = o :=
  getD_set_self _ _ h

theorem setOrder_pageOrder_ne (s : BuddyState) (i j : Nat) (o : Int) (h : i ≠ j) :
    (setOrder s i o).pageOrder.getD j (-1) = s.pageOrder.getD j (-1) :=
  getD_set_ne _ _ h

/-- Lengths of the three state components are preserved by all primitives. -/
theorem listAdd_lengths (s : BuddyState) (i o : Nat) :
    (listAdd s i o).pageOrder.length = s.pageOrder.length ∧
    (listAdd s i o).nodeUnlinked.length = s.nodeUnlinked.length ∧
    (listAdd s i o).freeArea.length = s.freeArea.length := by
  refine ⟨rfl, ?_, ?_⟩ <;> simp [listAdd]

theorem listDelInit_lengths (s : BuddyState) (i : Nat) :
    (listDelInit s i).pageOrder.length = s.pageOrder.length ∧
    (listDelInit s i).nodeUnlinked.length = s.nodeUnlinked.length ∧
    (listDelInit s i).freeArea.length = s.freeArea.length := by
  refine ⟨rfl, ?_, ?_⟩ <;> simp [listDelInit]

theorem setOrder_lengths (s : BuddyState) (i : Nat) (o : Int) :
    (setOrder s i o).pageOrder.length = s.pageOrder.length ∧
    (setOrder s i o).nodeUnlinked.length = s.nodeUnlinked.length ∧
    (setOrder s i o).freeArea.length = s.freeArea.length := by
  refine ⟨?_, rfl, rfl⟩; simp [setOrder]

/-! ### Specification of the order computation loop -/

/-- Complete description of the loop of orderFor: it either fails with -1,
in which case every order it inspected was too small, or returns the first
inspected order whose block size reaches `size`. -/
theorem orderGo_spec (size : Int) : ∀ fuel ord,
    (orderGo size fuel ord = -1 ∧
      ∀ q : Nat, ord ≤ q → q < ord + fuel → (2:Int) ^ q < size) ∨
    (∃ o : Nat, orderGo size fuel ord = (o : Int) ∧ ord ≤ o ∧ o < ord + fuel ∧
      size ≤ 2 ^ o ∧ ∀ q : Nat, ord ≤ q → q < o → (2:Int) ^ q < size)
  | 0, ord => Or.inl ⟨rfl, fun q h1 h2 => absurd h2 (by omega)⟩
  | fuel+1, ord => by
    by_cases h : size ≤ 2 ^ ord
    · exact Or.inr ⟨ord, by simp [orderGo, h], Nat.le_refl _, by omega, h,
        fun q h1 h2 => absurd h1 (by omega)⟩
    · have step : orderGo size (fuel+1) ord = orderGo size fuel (ord+1) := by
        simp [orderGo, h]
      rcases orderGo_spec size fuel (ord+1) with ⟨h1, h2⟩ | ⟨o, h1, h2, h3, h4, h5⟩
      · refine Or.inl ⟨step ▸ h1, fun q hq1 hq2 => ?_⟩
        rcases Nat.eq_or_lt_of_le hq1 with rfl | hlt
        · omega
        · exact h2 q hlt (by omega)
      · refine Or.inr ⟨o, step ▸ h1, by omega, by omega, h4, fun q hq1 hq2 => ?_⟩
        rcases Nat.eq_or_lt_of_le hq1 with rfl | hlt
        · omega
        · exact h5 q hlt hq2

/-- orderFor only produces -1 or an order in [MIN_ORDER, MAX_ORDER]. -/
theorem orderFor_cases (size : Int) :
    orderFor size = -1 ∨
    ∃ o : Nat, orderFor size = (o : Int) ∧ MIN_ORDER ≤ o ∧ o ≤ MAX_ORDER ∧
      size ≤ 2 ^ o ∧ ∀ q : Nat, MIN_ORDER ≤ q → q < o → (2:Int) ^ q < size := by
  rcases orderGo_spec size (MAX_ORDER + 1 - MIN_ORDER) MIN_ORDER with ⟨h1, _⟩ | ⟨o, h⟩
  · exact Or.inl h1
  · exact Or.inr ⟨o, h.1, h.2.1, by
      have := h.2.2.1
      simp only [MIN_ORDER, MAX_ORDER] at *
      omega, h.2.2.2.1, h.2.2.2.2⟩

/-! ### Characterization of the allocation scan -/

/-- When every free list in the scanned range is empty, the scan fails and
returns the state untouched. -/
theorem allocGo_none_of_empty (s : BuddyState) (order : Nat) : ∀ fuel i,
    (∀ q, i ≤ q → q < i + fuel → s.freeArea.getD q [] = []) →
    allocGo s order i fuel = (none, s)
  | 0, i, _ => rfl
  | fuel+1, i, h => by
    have hi : s.freeArea.getD i [] = [] := h i (Nat.le_refl _) (by omega)
    simp only [allocGo, hi]
    exact allocGo_none_of_empty s order fuel (i+1) (fun q h1 h2 => h q (by omega) (by omega))

/-- A failing scan never mutates the state. -/
theorem allocGo_fail_state (s : BuddyState) (order : Nat) : ∀ fuel i,
    (allocGo s order i fuel).1 = none → (allocGo s order i fuel).2 = s
  | 0, i, _ => rfl
  | fuel+1, i, h => by
    revert h
    simp only [allocGo]
    cases hl : s.freeArea.getD i [] with
    | nil => exact fun h => allocGo_fail_state s order fuel (i+1) h
    | cons idx rest =>
      by_cases hio : i = order <;> simp [hio]

/-- A successful scan found the head of the first nonempty list at an order
j in the scanned range, and the result state is exactly: remove that page,
split it down to the requested order, record the requested order in its
descriptor.  (When j = order the split performs no iteration.) -/
theorem allocGo_some_char (s : BuddyState) (order : Nat) : ∀ fuel i a s',
    allocGo s order i fuel = (some a, s') →
    ∃ j idx rest, i ≤ j ∧ j < i + fuel ∧ s.freeArea.getD j [] = idx :: rest ∧
      (∀ q, i ≤ q → q < j → s.freeArea.getD q [] = []) ∧
      a = pageToAddr idx ∧
      s' = setOrder (split (listDelInit s idx) idx j order) idx (order : Int)
  | 0, i, a, s', h => by simp [allocGo] at h
  | fuel+1, i, a, s', h => by
    revert h
    simp only [allocGo]
    cases hl : s.freeArea.getD i [] with
    | nil =>
      intro h
      rcases allocGo_some_char s order fuel (i+1) a s' h with
        ⟨j, idx, rest, h1, h2, h3, h4, h5, h6⟩
      exact ⟨j, idx, rest, by omega, by omega, h3,
        fun q hq1 hq2 => by
          rcases Nat.eq_or_lt_of_le hq1 with rfl | hlt
          · exact hl
          · exact h4 q hlt hq2, h5, h6⟩
    | cons idx rest =>
      intro h
      dsimp only at h
      by_cases hio : i = order
      · rw [if_pos hio, Prod.mk.injEq, Option.some.injEq] at h
        refine ⟨i, idx, rest, Nat.le_refl _, by omega, hl, fun q hq1 hq2 => by omega,
          h.1.symm, ?_⟩
        rw [← h.2, hio, split, Nat.sub_self]
        rfl
      · rw [if_neg hio, Prod.mk.injEq, Option.some.injEq] at h
        exact ⟨i, idx, rest, Nat.le_refl _, by omega, hl, fun q hq1 hq2 => by omega,
          h.1.symm, h.2.symm⟩

/-- If some list in the scanned range is nonempty, the scan succeeds. -/
theorem allocGo_some_of_nonempty (s : BuddyState) (order : Nat) : ∀ fuel i,
    (∃ q, i ≤ q ∧ q < i + fuel ∧ s.freeArea.getD q [] ≠ []) →
    ∃ a s', allocGo s order i fuel = (some a, s')
  | 0, i, h => by
    rcases h with ⟨q, h1, h2, _⟩
    omega
  | fuel+1, i, h => by
    simp only [allocGo]
    cases hl : s.freeArea.getD i [] with
    | nil =>
      refine allocGo_some_of_nonempty s order fuel (i+1) ?_
      rcases h with ⟨q, h1, h2, h3⟩
      rcases Nat.eq_or_lt_of_le h1 with rfl | hlt
      · exact absurd hl h3
      · exact ⟨q, hlt, by omega, h3⟩
    | cons idx rest =>
      by_cases hio : i = order <;> simp [hio]

/-- Full characterization of a successful buddy_alloc call. -/
theorem buddy_alloc_char (s : BuddyState) (size : Int) (a : Nat) (s' : BuddyState)
    (h : buddy_alloc s size = (some a, s')) :
    ∃ (o j idx : Nat) (rest : List Nat),
      orderFor size = (o : Int) ∧ MIN_ORDER ≤ o ∧ o ≤ MAX_ORDER ∧
      o ≤ j ∧ j ≤ MAX_ORDER ∧
      s.freeArea.getD j [] = idx :: rest ∧
      (∀ q, o ≤ q → q < j → s.freeArea.getD q [] = []) ∧
      a = pageToAddr idx ∧
      s' = setOrder (split (listDelInit s idx) idx j o) idx (o : Int) := by
  rcases orderFor_cases size with h1 | ⟨o, h1, h2, h3, _, _⟩
  · rw [buddy_alloc] at h
    simp [h1] at h
  · have hne : orderFor size ≠ -1 := by rw [h1]; omega
    have ht : (orderFor size).toNat = o := by rw [h1]; simp
    rw [buddy_alloc] at h
    simp only [if_neg hne, ht] at h
    rcases allocGo_some_char s o (MAX_ORDER + 1 - o) o a s' h with
      ⟨j, idx, rest, hj1, hj2, hj3, hj4, hj5, hj6⟩
    exact ⟨o, j, idx, rest, h1, h2, h3, hj1, by omega, hj3, hj4, hj5, hj6⟩

/-- A failing buddy_alloc returns its input state. -/
theorem buddy_alloc_fail_state (s : BuddyState) (size : Int)
    (h : (buddy_alloc s size).1 = none) : (buddy_alloc s size).2 = s := by
  rw [buddy_alloc] at h ⊢
  by_cases h1 : orderFor size = -1
  · simp [h1]
  · simp only [if_neg h1] at h ⊢
    exact allocGo_fail_state s _ _ _ h

/-! ### Claim C4: order computation -/

/-- C4: for every size with 1 ≤ size ≤ 2^MAX_ORDER, orderFor returns the
smallest order in [MIN_ORDER, MAX_ORDER] such that 2^order ≥ size; for every
size above 2^MAX_ORDER it returns the sentinel -1.  The model of orderFor is
a total pure function of size alone, mirroring that the C function only reads
its argument, never touches allocator state, and cannot crash. -/
theorem orderFor_spec (size : Int) :
    (1 ≤ size → size ≤ 2 ^ MAX_ORDER →
      ∃ o : Nat, orderFor size = (o : Int) ∧ MIN_ORDER ≤ o ∧ o ≤ MAX_ORDER ∧
        size ≤ 2 ^ o ∧ ∀ q : Nat, MIN_ORDER ≤ q → q < o → (2:Int) ^ q < size) ∧
    ((2:Int) ^ MAX_ORDER < size → orderFor size = -1) := by
  constructor
  · intro _ h2
    rcases orderGo_spec size (MAX_ORDER + 1 - MIN_ORDER) MIN_ORDER with ⟨_, hall⟩ | ⟨o, ho⟩
    · exfalso
      have := hall MAX_ORDER (by decide) (by decide)
      linarith
    · refine ⟨o, ho.1, ho.2.1, ?_, ho.2.2.2.1, ho.2.2.2.2⟩
      have hb := ho.2.2.1
      have e1 : MIN_ORDER = 12 := rfl
      have e2 : MAX_ORDER = 20 := rfl
      omega
  · intro h
    rcases orderFor_cases size with h1 | ⟨o, h1, _, h3, h4, _⟩
    · exact h1
    · exfalso
      have hmono : (2:Int) ^ o ≤ 2 ^ MAX_ORDER := pow_le_pow_right₀ (by norm_num) h3
      linarith

/-- C4 witness: concrete instances of both branches of orderFor_spec. -/
theorem orderFor_spec_witness :
    (∃ o : Nat, orderFor 5000 = (o : Int) ∧ MIN_ORDER ≤ o ∧ o ≤ MAX_ORDER ∧
      (5000:Int) ≤ 2 ^ o ∧ ∀ q : Nat, MIN_ORDER ≤ q → q < o → (2:Int) ^ q < 5000) ∧
    orderFor (2 ^ MAX_ORDER + 1) = -1 :=
  ⟨(orderFor_spec 5000).1 (by decide) (by decide),
   (orderFor_spec (2 ^ MAX_ORDER + 1)).2 (by decide)⟩

/-! ### Claims C7, C8, C10: failure behavior of buddy_alloc -/

/-- C7: buddy_alloc signals both failure cases through the single value
`none` (NULL) and leaves the state untouched, never aborting: an
unsatisfiable size (orderFor = -1) and exhaustion (no free block at any
order from the computed order up to MAX_ORDER) produce the same result
`(none, s)`, so the two cases are indistinguishable from the result. -/
theorem alloc_failure_channel :
    (∀ (s : BuddyState) (size : Int), orderFor size = -1 →
      buddy_alloc s size = (none, s)) ∧
    (∀ (s : BuddyState) (size : Int), orderFor size ≠ -1 →
      (∀ q : Nat, (orderFor size).toNat ≤ q → q ≤ MAX_ORDER → s.freeArea.getD q [] = []) →
      buddy_alloc s size = (none, s)) := by
  constructor
  · intro s size h
    rw [buddy_alloc]
    simp [h]
  · intro s size h hemp
    rcases orderFor_cases size with h1 | ⟨o, h1, h2, h3, _, _⟩
    · exact absurd h1 h
    · have ht : (orderFor size).toNat = o := by rw [h1]; simp
      rw [buddy_alloc]
      simp only [if_neg h, ht]
      refine allocGo_none_of_empty s o _ o (fun q hq1 hq2 => hemp q (ht ▸ hq1) ?_)
      have e2 : MAX_ORDER = 20 := rfl
      omega

/-- C7 witness: both failure cases on concrete inputs, an oversized request
and an exhausted arena, produce the result through the same channel. -/
theorem alloc_failure_channel_witness :
    buddy_alloc buddy_init (2 ^ MAX_ORDER + 1) = (none, buddy_init) ∧
    buddy_alloc
      { pageOrder := List.replicate N_PAGES (-1),
        nodeUnlinked := List.replicate N_PAGES false,
        freeArea := List.replicate (MAX_ORDER + 1) [] } 4096 =
      (none,
      { pageOrder := List.replicate N_PAGES (-1),
        nodeUnlinked := List.replicate N_PAGES false,
        freeArea := List.replicate (MAX_ORDER + 1) [] }) :=
  ⟨alloc_failure_channel.1 buddy_init _ (by decide),
   alloc_failure_channel.2 _ 4096 (by decide)
     (fun q _ _ => by rw [getD_replicate]; split <;> rfl)⟩

/-- C8: failure atomicity of buddy_alloc.  A failing call returns the state
unchanged; a successful call removed the head page of the first nonempty
free list at some order j ≥ orderFor size, completed the whole split chain
from j down to the computed order, and recorded that order — nothing else. -/
theorem alloc_failure_atomic :
    (∀ (s : BuddyState) (size : Int), (buddy_alloc s size).1 = none →
      (buddy_alloc s size).2 = s) ∧
    (∀ (s : BuddyState) (size : Int) (a : Nat) (s' : BuddyState),
      buddy_alloc s size = (some a, s') →
      ∃ (o j idx : Nat) (rest : List Nat),
        orderFor size = (o : Int) ∧ MIN_ORDER ≤ o ∧ o ≤ MAX_ORDER ∧
        o ≤ j ∧ j ≤ MAX_ORDER ∧
        s.freeArea.getD j [] = idx :: rest ∧
        (∀ q, o ≤ q → q < j → s.freeArea.getD q [] = []) ∧
        a = pageToAddr idx ∧
        s' = setOrder (split (listDelInit s idx) idx j o) idx (o : Int)) :=
  ⟨buddy_alloc_fail_state, buddy_alloc_char⟩

/-- C8 witness: a concrete failing call (size too large on the fresh arena)
leaves the state exactly as it was. -/
theorem alloc_failure_atomic_witness :
    (buddy_alloc buddy_init (2 ^ MAX_ORDER + 1)).2 = buddy_init :=
  alloc_failure_atomic.1 buddy_init (2 ^ MAX_ORDER + 1) (by decide)

/-- C10: for every size ≤ 0 (outside the documented domain size > 0),
orderFor returns MIN_ORDER because (1 << MIN_ORDER) >= size already holds at
the first loop iteration, so buddy_alloc on any state that still has a free
block succeeds and hands out a block of 2^MIN_ORDER bytes instead of
failing. -/
theorem alloc_nonpositive_size (size : Int) (h : size ≤ 0) :
    orderFor size = (MIN_ORDER : Int) ∧
    ∀ s : BuddyState,
      (∃ q, MIN_ORDER ≤ q ∧ q ≤ MAX_ORDER ∧ s.freeArea.getD q [] ≠ []) →
      ∃ a s', buddy_alloc s size = (some a, s') := by
  have hpos : (0:Int) < 2 ^ MIN_ORDER := by positivity
  have h12 : orderFor size = (MIN_ORDER : Int) := by
    rcases orderGo_spec size (MAX_ORDER + 1 - MIN_ORDER) MIN_ORDER with ⟨_, hall⟩ | ⟨o, ho⟩
    · exfalso
      have := hall MIN_ORDER (Nat.le_refl _) (by decide)
      linarith
    · rcases Nat.eq_or_lt_of_le ho.2.1 with rfl | hlt
      · exact ho.1
      · exfalso
        have := ho.2.2.2.2 MIN_ORDER (Nat.le_refl _) hlt
        linarith
  refine ⟨h12, fun s ⟨q, hq1, hq2, hq3⟩ => ?_⟩
  have hne : orderFor size ≠ -1 := by rw [h12]; decide
  have ht : (orderFor size).toNat = MIN_ORDER := by rw [h12]; rfl
  rw [buddy_alloc]
  simp only [if_neg hne, ht]
  refine allocGo_some_of_nonempty s MIN_ORDER _ MIN_ORDER ⟨q, hq1, ?_, hq3⟩
  have e1 : MIN_ORDER = 12 := rfl
  have e2 : MAX_ORDER = 20 := rfl
  omega

/-- C10 witness: size 0 on the fresh arena. -/
theorem alloc_nonpositive_size_witness :
    orderFor 0 = (MIN_ORDER : Int) ∧
    ∃ a s', buddy_alloc buddy_init 0 = (some a, s') :=
  ⟨(alloc_nonpositive_size 0 (by decide)).1,
   (alloc_nonpositive_size 0 (by decide)).2 buddy_init
     ⟨MAX_ORDER, by decide, Nat.le_refl _, by decide⟩⟩

/-! ### Buddy address arithmetic -/

/-- Distributivity of xor over a common power-of-two factor. -/
theorem mul_pow_xor (a b k : Nat) : (a * 2 ^ k) ^^^ (b * 2 ^ k) = (a ^^^ b) * 2 ^ k := by
  apply Nat.eq_of_testBit_eq
  intro j
  simp only [Nat.testBit_xor, Nat.mul_comm _ (2 ^ k), Nat.testBit_mul_pow_two]
  cases Nat.decLe k j with
  | isTrue h => simp [h, Nat.testBit_xor]
  | isFalse h => simp [h]

/-- The byte-level buddy computation of buddy.c is the xor of one bit of the
page index: BUDDY_ADDR flips bit o of the offset, i.e. bit o - MIN_ORDER of
the page index. -/
theorem buddyIdx_eq (i o : Nat) (h : MIN_ORDER ≤ o) :
    buddyIdx i o = i ^^^ 2 ^ (o - MIN_ORDER) := by
  have hsplit : 2 ^ o = 2 ^ (o - MIN_ORDER) * 2 ^ MIN_ORDER := by
    rw [← pow_add]
    congr 1
    omega
  have hp : 0 < 2 ^ MIN_ORDER := Nat.pos_pow_of_pos _ (by omega)
  rw [buddyIdx, buddyAddr, pageToAddr, addrToPage, PAGE_SIZE, hsplit, mul_pow_xor,
    Nat.mul_div_cancel _ hp]

/-- Flipping bit 0 of an even number adds one. -/
theorem xor_one_even {m : Nat} (h : m % 2 = 0) : m ^^^ 1 = m + 1 := by
  apply Nat.eq_of_testBit_eq
  intro j
  cases j with
  | zero => simp [Nat.testBit_zero, Nat.xor_mod_two_eq]
  | succ j =>
    have h2 : (m + 1) / 2 = m / 2 := by omega
    have h3 : (1:Nat) < 2 ^ (j+1) := Nat.one_lt_two_pow (by omega)
    rw [Nat.testBit_xor, Nat.testBit_eq_false_of_lt h3, Bool.xor_false,
      Nat.testBit_add_one, Nat.testBit_add_one, h2]

/-- Flipping bit 0 of an odd number subtracts one. -/
theorem xor_one_odd {m : Nat} (h : m % 2 = 1) : m ^^^ 1 = m - 1 := by
  have h1 : (m - 1) ^^^ 1 = m := by
    rw [xor_one_even (by omega)]
    omega
  calc m ^^^ 1 = ((m - 1) ^^^ 1) ^^^ 1 := by rw [h1]
    _ = m - 1 := Nat.xor_cancel_right 1 (m - 1)

/-- For a 2^k-aligned base i, flipping bit k yields the sibling half:
either the upper half i + 2^k (when i is even in units of 2^k and hence
2^(k+1)-aligned), or the lower half i - 2^k (which is 2^(k+1)-aligned). -/
theorem buddy_step (i k : Nat) (hal : 2 ^ k ∣ i) :
    (i ^^^ 2 ^ k = i + 2 ^ k ∧ 2 ^ (k+1) ∣ i) ∨
    (i ^^^ 2 ^ k = i - 2 ^ k ∧ 2 ^ k ≤ i ∧ 2 ^ (k+1) ∣ (i - 2 ^ k)) := by
  obtain ⟨m, rfl⟩ := hal
  have hx : (2 ^ k * m) ^^^ 2 ^ k = 2 ^ k * (m ^^^ 1) := by
    have := mul_pow_xor m 1 k
    rw [Nat.one_mul] at this
    rw [Nat.mul_comm (2^k) m, this, Nat.mul_comm]
  rcases Nat.even_or_odd m with he | ho
  · left
    have hm : m % 2 = 0 := Nat.even_iff.mp he
    constructor
    · rw [hx, xor_one_even hm, Nat.mul_add, Nat.mul_one]
    · obtain ⟨t, rfl⟩ : ∃ t, m = 2 * t := ⟨m / 2, by omega⟩
      exact ⟨t, by ring⟩
  · right
    have hm : m % 2 = 1 := Nat.odd_iff.mp ho
    have hm1 : 1 ≤ m := by omega
    refine ⟨?_, ?_, ?_⟩
    · rw [hx, xor_one_odd hm, Nat.mul_sub, Nat.mul_one]
    · calc 2 ^ k = 2 ^ k * 1 := by ring
        _ ≤ 2 ^ k * m := Nat.mul_le_mul_left _ hm1
    · obtain ⟨t, rfl⟩ : ∃ t, m = 2 * t + 1 := ⟨m / 2, by omega⟩
      refine ⟨t, ?_⟩
      have : 2 ^ k * (2 * t + 1) - 2 ^ k = 2 ^ k * (2 * t) := by
        rw [Nat.mul_add, Nat.mul_one]
        omega
      rw [this]
      ring

/-- The buddy of i at order o is a different page. -/
theorem buddyIdx_ne (i o : Nat) (h : MIN_ORDER ≤ o) : buddyIdx i o ≠ i := by
  rw [buddyIdx_eq i o h]
  intro hcontra
  have h0 : i ^^^ 2 ^ (o - MIN_ORDER) = i ^^^ 0 := by rw [hcontra, Nat.xor_zero]
  have hz := Nat.xor_right_injective h0
  have hp : 0 < (2:Nat) ^ (o - MIN_ORDER) := Nat.pos_pow_of_pos _ (by omega)
  omega

/-- Buddies of the same base at different orders are different pages. -/
theorem buddyIdx_inj (i o o' : Nat) (h : MIN_ORDER ≤ o) (h' : MIN_ORDER ≤ o')
    (hne : o ≠ o') : buddyIdx i o ≠ buddyIdx i o' := by
  rw [buddyIdx_eq i o h, buddyIdx_eq i o' h']
  intro hcontra
  have hpow : (2:Nat) ^ (o - MIN_ORDER) = 2 ^ (o' - MIN_ORDER) :=
    Nat.xor_right_injective hcontra
  have := Nat.pow_right_injective (Nat.le_refl 2) hpow
  omega

/-- Buddies stay inside the page range. -/
theorem buddyIdx_lt (i o : Nat) (h : MIN_ORDER ≤ o) (ho : o < MAX_ORDER)
    (hi : i < N_PAGES) : buddyIdx i o < N_PAGES := by
  rw [buddyIdx_eq i o h]
  have hN : N_PAGES = 2 ^ 8 := rfl
  have e1 : MIN_ORDER = 12 := rfl
  have e2 : MAX_ORDER = 20 := rfl
  have h2 : (2:Nat) ^ (o - MIN_ORDER) < 2 ^ 8 :=
    Nat.pow_lt_pow_of_lt (by omega) (by omega)
  rw [hN] at hi ⊢
  exact Nat.xor_lt_two_pow hi h2

/-! ### Dimension bookkeeping -/

theorem Dims.listAdd {s : BuddyState} (hd : Dims s) (i o : Nat) :
    Dims (BuddyAlloc.listAdd s i o) := by
  obtain ⟨d1, d2, d3⟩ := hd
  exact ⟨d1, by simp [BuddyAlloc.listAdd, d2], by simp [BuddyAlloc.listAdd, d3]⟩

theorem Dims.listDelInit {s : BuddyState} (hd : Dims s) (i : Nat) :
    Dims (BuddyAlloc.listDelInit s i) := by
  obtain ⟨d1, d2, d3⟩ := hd
  exact ⟨d1, by simp [BuddyAlloc.listDelInit, d2], by simp [BuddyAlloc.listDelInit, d3]⟩

theorem Dims.setOrder {s : BuddyState} (hd : Dims s) (i : Nat) (o : Int) :
    Dims (BuddyAlloc.setOrder s i o) := by
  obtain ⟨d1, d2, d3⟩ := hd
  exact ⟨by simp [BuddyAlloc.setOrder, d1], d2, d3⟩

theorem Dims.buddy_init : Dims BuddyAlloc.buddy_init := by
  refine ⟨?_, ?_, ?_⟩ <;> simp [BuddyAlloc.buddy_init]

/-! ### Characterization of the split loop -/

/-- Complete description of splitGo: starting from a block based at page i,
n split steps at orders t + n - 1 down to t insert the buddy of i at each of
these orders at the front of that order's free list, record that order in the
buddy's descriptor and link its node; nothing else changes. -/
theorem splitGo_char (i : Nat) (hi : i < N_PAGES) : ∀ (n : Nat) (s : BuddyState) (t : Nat),
    Dims s → MIN_ORDER ≤ t → t + n ≤ MAX_ORDER →
    Dims (splitGo s i t n) ∧
    (∀ q, t ≤ q → q < t + n →
      (splitGo s i t n).freeArea.getD q [] = buddyIdx i q :: s.freeArea.getD q [] ∧
      (splitGo s i t n).pageOrder.getD (buddyIdx i q) (-1) = (q : Int) ∧
      (splitGo s i t n).nodeUnlinked.getD (buddyIdx i q) false = false) ∧
    (∀ q, q < t ∨ t + n ≤ q →
      (splitGo s i t n).freeArea.getD q [] = s.freeArea.getD q []) ∧
    (∀ j, (∀ q, t ≤ q → q < t + n → j ≠ buddyIdx i q) →
      (splitGo s i t n).pageOrder.getD j (-1) = s.pageOrder.getD j (-1) ∧
      (splitGo s i t n).nodeUnlinked.getD j false = s.nodeUnlinked.getD j false)
  | 0, s, t, hd, _, _ =>
    ⟨hd, fun _ h1 h2 => absurd h2 (by omega), fun _ _ => rfl, fun _ _ => ⟨rfl, rfl⟩⟩
  | n+1, s, t, hd, ht, hb => by
    have hco : t + n < MAX_ORDER := by omega
    have hblt : buddyIdx i (t+n) < N_PAGES := buddyIdx_lt i (t+n) (by omega) hco hi
    have hd' : Dims (listAdd (setOrder s (buddyIdx i (t+n)) ((t+n : Nat) : Int))
        (buddyIdx i (t+n)) (t+n)) :=
      (hd.setOrder _ _).listAdd _ _
    have step : splitGo s i t (n+1) =
        splitGo (listAdd (setOrder s (buddyIdx i (t+n)) ((t+n : Nat) : Int))
          (buddyIdx i (t+n)) (t+n)) i t n := rfl
    obtain ⟨ihD, ihIn, ihOut, ihOther⟩ :=
      splitGo_char i hi n (listAdd (setOrder s (buddyIdx i (t+n)) ((t+n : Nat) : Int))
        (buddyIdx i (t+n)) (t+n)) t hd' ht (by omega)
    rw [step]
    refine ⟨ihD, ?_, ?_, ?_⟩
    · intro q h1 h2
      rcases Nat.lt_or_ge q (t+n) with hq | hq
      · obtain ⟨e1, e2, e3⟩ := ihIn q h1 hq
        refine ⟨?_, e2, e3⟩
        rw [e1, listAdd_freeArea_ne _ _ _ _ (by omega), setOrder_freeArea]
      · have hqe : q = t + n := by omega
        subst hqe
        refine ⟨?_, ?_, ?_⟩
        · rw [ihOut (t+n) (Or.inr (Nat.le_refl _)),
            listAdd_freeArea_self _ _ _ (by rw [setOrder_freeArea]; exact hd.2.2 ▸ (by omega)),
            setOrder_freeArea]
        · have hne : ∀ q', t ≤ q' → q' < t + n → buddyIdx i (t+n) ≠ buddyIdx i q' :=
            fun q' hq1 hq2 => buddyIdx_inj i (t+n) q' (by omega) (by omega) (by omega)
          rw [(ihOther _ hne).1, listAdd_pageOrder,
            setOrder_pageOrder_self _ _ _ (hd.1 ▸ hblt)]
        · have hne : ∀ q', t ≤ q' → q' < t + n → buddyIdx i (t+n) ≠ buddyIdx i q' :=
            fun q' hq1 hq2 => buddyIdx_inj i (t+n) q' (by omega) (by omega) (by omega)
          rw [(ihOther _ hne).2, listAdd_unlinked_self _ _ _
            (by rw [setOrder_unlinked]; exact hd.2.1 ▸ hblt)]
    · intro q hq
      have : q < t ∨ t + n ≤ q := by omega
      rw [ihOut q this, listAdd_freeArea_ne _ _ _ _ (by omega), setOrder_freeArea]
    · intro j hj
      have hjb : j ≠ buddyIdx i (t+n) := hj (t+n) (by omega) (by omega)
      have hj' : ∀ q, t ≤ q → q < t + n → j ≠ buddyIdx i q :=
        fun q h1 h2 => hj q h1 (by omega)
      obtain ⟨e1, e2⟩ := ihOther j hj'
      constructor
      · rw [e1, listAdd_pageOrder, setOrder_pageOrder_ne _ _ _ _ (fun h => hjb h.symm)]
      · rw [e2, listAdd_unlinked_ne _ _ _ _ (fun h => hjb h.symm), setOrder_unlinked]

/-! ### Counting free-list entries -/

theorem sum_map_range_add (f g h : Nat → Nat) : ∀ N, (∀ q, q < N → f q = g q + h q) →
    ((List.range N).map f).sum = ((List.range N).map g).sum + ((List.range N).map h).sum
  | 0, _ => rfl
  | N+1, hp => by
    rw [List.range_succ, List.map_append, List.map_append, List.map_append,
      List.sum_append, List.sum_append, List.sum_append,
      sum_map_range_add f g h N (fun q hq => hp q (by omega))]
    simp only [List.map_cons, List.map_nil, List.sum_cons, List.sum_nil]
    rw [hp N (by omega)]
    omega

theorem sum_indicator (t c : Nat) : ∀ N,
    ((List.range N).map (fun q => if t ≤ q ∧ q < c then 1 else 0)).sum =
      min c N - min t N
  | 0 => by simp
  | N+1 => by
    rw [List.range_succ, List.map_append, List.sum_append, sum_indicator t c N]
    by_cases h : t ≤ N ∧ N < c <;> simp [h] <;> omega

/-! ### Claim C5: split correctness -/

/-- C5: splitting a free block based at page i from fromOrder down to
toOrder inserts exactly fromOrder - toOrder new free-list entries, namely the
buddy of i at each order from fromOrder - 1 down to toOrder, pushed at the
front of that order's free list with the buddy's descriptor marked with that
order (and its node linked); every other free list is untouched, and the
descriptor of the retained block keeps its base page i, whose address
buddy_alloc hands out unchanged. -/
theorem split_spec (s : BuddyState) (i fromOrder toOrder : Nat)
    (hd : Dims s) (hi : i < N_PAGES) (h1 : MIN_ORDER ≤ toOrder)
    (h2 : toOrder < fromOrder) (h3 : fromOrder ≤ MAX_ORDER) :
    (∀ q, toOrder ≤ q → q < fromOrder →
      (split s i fromOrder toOrder).freeArea.getD q [] =
        buddyIdx i q :: s.freeArea.getD q [] ∧
      (split s i fromOrder toOrder).pageOrder.getD (buddyIdx i q) (-1) = (q : Int) ∧
      (split s i fromOrder toOrder).nodeUnlinked.getD (buddyIdx i q) false = false) ∧
    (∀ q, q < toOrder ∨ fromOrder ≤ q →
      (split s i fromOrder toOrder).freeArea.getD q [] = s.freeArea.getD q []) ∧
    (split s i fromOrder toOrder).pageOrder.getD i (-1) = s.pageOrder.getD i (-1) ∧
    ((List.range (MAX_ORDER+1)).map
        (fun q => ((split s i fromOrder toOrder).freeArea.getD q []).length)).sum =
      ((List.range (MAX_ORDER+1)).map (fun q => (s.freeArea.getD q []).length)).sum +
        (fromOrder - toOrder) := by
  have hn : toOrder + (fromOrder - toOrder) = fromOrder := by omega
  obtain ⟨_, hIn, hOut, hOther⟩ :=
    splitGo_char i hi (fromOrder - toOrder) s toOrder hd h1 (by omega)
  rw [hn] at hIn hOut hOther
  rw [split]
  refine ⟨hIn, hOut, ?_, ?_⟩
  · exact (hOther i (fun q _ _ => (buddyIdx_ne i q (by omega)).symm)).1
  · have e2 : MAX_ORDER = 20 := rfl
    rw [sum_map_range_add
        (fun q => ((splitGo s i toOrder (fromOrder - toOrder)).freeArea.getD q []).length)
        (fun q => (s.freeArea.getD q []).length)
        (fun q => if toOrder ≤ q ∧ q < fromOrder then 1 else 0)
        (MAX_ORDER+1) ?_, sum_indicator]
    · omega
    · intro q hq
      dsimp only
      by_cases hcase : toOrder ≤ q ∧ q < fromOrder
      · rw [if_pos hcase, (hIn q hcase.1 hcase.2).1]
        rfl
      · rw [if_neg hcase, hOut q (by omega)]
        omega

/-- C5 witness: the very first allocation splits the whole arena from
MAX_ORDER down to MIN_ORDER. -/
theorem split_spec_witness :
    (∀ q, MIN_ORDER ≤ q → q < MAX_ORDER →
      (split buddy_init 0 MAX_ORDER MIN_ORDER).freeArea.getD q [] =
        buddyIdx 0 q :: buddy_init.freeArea.getD q [] ∧
      (split buddy_init 0 MAX_ORDER MIN_ORDER).pageOrder.getD (buddyIdx 0 q) (-1) = (q : Int) ∧
      (split buddy_init 0 MAX_ORDER MIN_ORDER).nodeUnlinked.getD (buddyIdx 0 q) false = false) ∧
    (∀ q, q < MIN_ORDER ∨ MAX_ORDER ≤ q →
      (split buddy_init 0 MAX_ORDER MIN_ORDER).freeArea.getD q [] =
        buddy_init.freeArea.getD q []) ∧
    (split buddy_init 0 MAX_ORDER MIN_ORDER).pageOrder.getD 0 (-1) =
      buddy_init.pageOrder.getD 0 (-1) ∧
    ((List.range (MAX_ORDER+1)).map
        (fun q => ((split buddy_init 0 MAX_ORDER MIN_ORDER).freeArea.getD q []).length)).sum =
      ((List.range (MAX_ORDER+1)).map
        (fun q => (buddy_init.freeArea.getD q []).length)).sum + (MAX_ORDER - MIN_ORDER) :=
  split_spec buddy_init 0 MAX_ORDER MIN_ORDER Dims.buddy_init (by decide) (by decide)
    (by decide) (by decide)

/-! ### Claim C9: what an allocated block's descriptor carries -/

/-- C9 counterexample: after the very first allocation hands out the block at
page 0 at order MIN_ORDER, buddy.c line 153 has left g_pages[0].order equal
to MIN_ORDER — the order at which the block was allocated, a value in the
valid order range — and not any distinguished "not free" sentinel such as the
initial -1. -/
theorem allocated_order_not_sentinel :
    (buddy_alloc buddy_init 4096).1 = some (pageToAddr 0) ∧
    ((buddy_alloc buddy_init 4096).2).pageOrder.getD 0 (-1) = ((MIN_ORDER : Nat) : Int) ∧
    ((buddy_alloc buddy_init 4096).2).pageOrder.getD 0 (-1) ≠ -1 := by
  refine ⟨by decide, by decide, by decide⟩

/-! ### Blocks, coverage and the free-block multiset -/

theorem covers_iff (b : Nat × Nat) (pg : Nat) :
    covers b pg = true ↔ b.1 ≤ pg ∧ pg < b.1 + 2 ^ (b.2 - MIN_ORDER) := by
  simp [covers]

/-- Every block covers its own base page. -/
theorem covers_base (b : Nat × Nat) : covers b b.1 = true := by
  rw [covers_iff]
  have : 0 < 2 ^ (b.2 - MIN_ORDER) := Nat.pos_pow_of_pos _ (by omega)
  omega

theorem mem_freeBlocks (s : BuddyState) (i o : Nat) :
    (i, o) ∈ freeBlocks s ↔ o ≤ MAX_ORDER ∧ i ∈ s.freeArea.getD o [] := by
  rw [freeBlocks, List.mem_flatMap]
  constructor
  · rintro ⟨q, hq, hmem⟩
    rw [List.mem_map] at hmem
    obtain ⟨j, hj, hpair⟩ := hmem
    obtain ⟨rfl, rfl⟩ : j = i ∧ q = o := by
      constructor <;> [exact congrArg Prod.fst hpair; exact congrArg Prod.snd hpair]
    exact ⟨by have := List.mem_range.mp hq; omega, hj⟩
  · rintro ⟨ho, hmem⟩
    exact ⟨o, List.mem_range.mpr (by omega), List.mem_map.mpr ⟨i, hmem, rfl⟩⟩

/-- Every member of freeBlocks has this form. -/
theorem freeBlocks_mem_shape (s : BuddyState) (b : Nat × Nat) (h : b ∈ freeBlocks s) :
    b.2 ≤ MAX_ORDER ∧ b.1 ∈ s.freeArea.getD b.2 [] := by
  obtain ⟨i, o⟩ := b
  exact (mem_freeBlocks s i o).mp h

theorem flatMap_congr_mem {β : Type} (f g : Nat → List β) :
    ∀ l : List Nat, (∀ a ∈ l, f a = g a) → l.flatMap f = l.flatMap g
  | [], _ => rfl
  | a :: l, h => by
    rw [List.flatMap_cons, List.flatMap_cons, h a (List.mem_cons_self a l),
      flatMap_congr_mem f g l (fun b hb => h b (List.mem_cons_of_mem a hb))]

/-- Inserting one new head into one bucket prepends one block, up to
permutation. -/
theorem flatMap_perm_cons {β : Type} (f g : Nat → List β) (x : β) (o : Nat) :
    ∀ N, o < N → (∀ q, q < N → q ≠ o → f q = g q) → f o ~ x :: g o →
    (List.range N).flatMap f ~ x :: (List.range N).flatMap g
  | 0, h, _, _ => absurd h (by omega)
  | N+1, h, hq, ho => by
    rw [List.range_succ, List.flatMap_append, List.flatMap_append,
      List.flatMap_cons, List.flatMap_cons, List.flatMap_nil, List.flatMap_nil,
      List.append_nil, List.append_nil]
    rcases Nat.lt_or_ge o N with hlt | hge
    · have ih := flatMap_perm_cons f g x o N hlt (fun q h1 h2 => hq q (by omega) h2) ho
      have hfN : f N = g N := hq N (by omega) (by omega)
      rw [hfN]
      calc (List.range N).flatMap f ++ g N
          ~ (x :: (List.range N).flatMap g) ++ g N := ih.append_right _
        _ = x :: ((List.range N).flatMap g ++ g N) := rfl
    · have hoN : o = N := by omega
      subst hoN
      have hpre : (List.range o).flatMap f = (List.range o).flatMap g :=
        flatMap_congr_mem f g _ (fun a ha => hq a (by
          have := List.mem_range.mp ha
          omega) (by
          have := List.mem_range.mp ha
          omega))
      rw [hpre]
      calc (List.range o).flatMap g ++ f o
          ~ (List.range o).flatMap g ++ (x :: g o) := (ho.append_left _)
        _ ~ x :: ((List.range o).flatMap g ++ g o) := List.perm_middle

theorem freeBlocks_setOrder (s : BuddyState) (i : Nat) (o : Int) :
    freeBlocks (setOrder s i o) = freeBlocks s := rfl

theorem freeBlocks_listAdd (s : BuddyState) (i o : Nat) (hd : Dims s)
    (ho : o ≤ MAX_ORDER) :
    freeBlocks (listAdd s i o) ~ (i, o) :: freeBlocks s := by
  rw [freeBlocks, freeBlocks]
  apply flatMap_perm_cons _ _ _ o (MAX_ORDER+1) (by omega)
  · intro q hq hne
    rw [listAdd_freeArea_ne s i o q (fun h => hne h.symm)]
  · rw [listAdd_freeArea_self s i o (by rw [hd.2.2]; omega), List.map_cons]

theorem freeBlocks_listDelInit (s : BuddyState) (i o : Nat) (ho : o ≤ MAX_ORDER)
    (hmem : i ∈ s.freeArea.getD o [])
    (honly : ∀ q, q ≤ MAX_ORDER → q ≠ o → i ∉ s.freeArea.getD q []) :
    freeBlocks s ~ (i, o) :: freeBlocks (listDelInit s i) := by
  rw [freeBlocks, freeBlocks]
  apply flatMap_perm_cons _ _ _ o (MAX_ORDER+1) (by omega)
  · intro q hq hne
    rw [listDelInit_freeArea, List.erase_of_not_mem (honly q (by omega) hne)]
  · rw [listDelInit_freeArea]
    calc (s.freeArea.getD o []).map (fun j => (j, o))
        ~ (i :: (s.freeArea.getD o []).erase i).map (fun j => (j, o)) :=
          (List.perm_cons_erase hmem).map _
      _ = (i, o) :: ((s.freeArea.getD o []).erase i).map (fun j => (j, o)) := List.map_cons _ _ _

/-- Two distinct members both satisfying p force a count of at least two. -/
theorem two_le_countP {β : Type} [DecidableEq β] (p : β → Bool) (l : List β) (b1 b2 : β)
    (h1 : b1 ∈ l) (h2 : b2 ∈ l) (hne : b1 ≠ b2) (p1 : p b1 = true) (p2 : p b2 = true) :
    2 ≤ l.countP p := by
  have hp : l ~ b1 :: l.erase b1 := List.perm_cons_erase h1
  have h2' : b2 ∈ l.erase b1 := (List.mem_erase_of_ne (Ne.symm hne)).mpr h2
  have hp2 : l.erase b1 ~ b2 :: (l.erase b1).erase b2 := List.perm_cons_erase h2'
  rw [hp.countP_eq, List.countP_cons_of_pos _ _ p1, hp2.countP_eq,
    List.countP_cons_of_pos _ _ p2]
  omega

/-! ### The reachable-state invariant -/

/-! ### Block geometry -/

/-- A multiple of 2^j below a bound that is itself a multiple of 2^j leaves
room for a whole 2^j step. -/
theorem aligned_bound (p j N : Nat) (hd : 2 ^ j ∣ p) (hdN : 2 ^ j ∣ N) (h : p < N) :
    p + 2 ^ j ≤ N := by
  obtain ⟨u, rfl⟩ := hd
  obtain ⟨v, rfl⟩ := hdN
  have hp : 0 < 2 ^ j := Nat.pos_pow_of_pos _ (by omega)
  have huv : u < v := by
    by_contra hcontra
    exact absurd (Nat.mul_le_mul_left (2 ^ j) (by omega : v ≤ u)) (by omega)
  calc 2 ^ j * u + 2 ^ j = 2 ^ j * (u + 1) := by ring
    _ ≤ 2 ^ j * v := Nat.mul_le_mul_left _ (by omega)

/-- A 2^(k+1)-aligned base has bit k clear, so its buddy at that bit is the
upper sibling. -/
theorem buddy_upper (p k : Nat) (hal : 2 ^ (k+1) ∣ p) : p ^^^ 2 ^ k = p + 2 ^ k := by
  have hk : 2 ^ k ∣ p := dvd_trans (pow_dvd_pow 2 (by omega)) hal
  rcases buddy_step p k hk with ⟨h1, _⟩ | ⟨h1, h2, h3⟩
  · exact h1
  · exfalso
    have hgt : 0 < 2 ^ k := Nat.pos_pow_of_pos _ (by omega)
    have hdiff : 2 ^ (k+1) ∣ (p - (p - 2 ^ k)) := Nat.dvd_sub' hal h3
    have : p - (p - 2 ^ k) = 2 ^ k := by omega
    rw [this] at hdiff
    have := Nat.le_of_dvd hgt hdiff
    have : (2:Nat) ^ (k+1) = 2 * 2 ^ k := by ring
    omega

/-- Splitting a good block at order c (c > MIN_ORDER) produces the two good
halves at order c - 1: the retained lower half based at p and the buddy based
at p + half-size; together they cover exactly the block, disjointly. -/
theorem split_geometry (p c : Nat) (hg : goodBlock (p, c)) (hc : MIN_ORDER < c) :
    buddyIdx p (c-1) = p + 2 ^ (c-1-MIN_ORDER) ∧ goodBlock (p, c-1) ∧
    goodBlock (p + 2 ^ (c-1-MIN_ORDER), c-1) ∧
    (∀ pg, covers (p, c) pg = true ↔
      (covers (p, c-1) pg = true ∨ covers (p + 2 ^ (c-1-MIN_ORDER), c-1) pg = true)) ∧
    (∀ pg, ¬(covers (p, c-1) pg = true ∧
      covers (p + 2 ^ (c-1-MIN_ORDER), c-1) pg = true)) := by
  obtain ⟨g1, g2, g3, g4⟩ := hg
  dsimp only at g1 g2 g3 g4
  have e1 : MIN_ORDER = 12 := rfl
  have hk : c - 1 - MIN_ORDER + 1 = c - MIN_ORDER := by omega
  have hsz : (2:Nat) ^ (c - MIN_ORDER) = 2 ^ (c-1-MIN_ORDER) + 2 ^ (c-1-MIN_ORDER) := by
    rw [← hk, pow_succ]
    ring
  have halp : 2 ^ (c-1-MIN_ORDER+1) ∣ p := by rw [hk]; exact g3
  have hb : buddyIdx p (c-1) = p + 2 ^ (c-1-MIN_ORDER) := by
    rw [buddyIdx_eq p (c-1) (by omega)]
    have : c - 1 - MIN_ORDER = c - MIN_ORDER - 1 := by omega
    rw [show c - 1 - MIN_ORDER = c - 1 - MIN_ORDER from rfl] at *
    exact buddy_upper p (c-1-MIN_ORDER) halp
  have hdvd : 2 ^ (c-1-MIN_ORDER) ∣ p := dvd_trans (pow_dvd_pow 2 (by omega)) g3
  refine ⟨hb, ⟨by dsimp only; omega, by dsimp only; omega, hdvd, by dsimp only; omega⟩,
    ⟨by dsimp only; omega, by dsimp only; omega, ?_, by dsimp only; omega⟩, ?_, ?_⟩
  · exact Dvd.dvd.add hdvd dvd_rfl
  · intro pg
    rw [covers_iff, covers_iff, covers_iff]
    dsimp only
    omega
  · intro pg
    rw [covers_iff, covers_iff]
    dsimp only
    omega

/-- Merging a good block at order ord < MAX_ORDER with its buddy (whenever
that buddy is itself in a good state at order ord) produces the good parent
block based at the smaller of the two bases, covering exactly their union,
and the two halves are disjoint. -/
theorem merge_geometry (p ord : Nat) (hgp : goodBlock (p, ord)) (hord : ord < MAX_ORDER) :
    goodBlock (buddyIdx p ord, ord) ∧ buddyIdx p ord ≠ p ∧
    goodBlock (min (buddyIdx p ord) p, ord+1) ∧
    (∀ pg, covers (min (buddyIdx p ord) p, ord+1) pg = true ↔
      (covers (p, ord) pg = true ∨ covers (buddyIdx p ord, ord) pg = true)) ∧
    (∀ pg, ¬(covers (p, ord) pg = true ∧ covers (buddyIdx p ord, ord) pg = true)) := by
  obtain ⟨g1, g2, g3, g4⟩ := hgp
  dsimp only at g1 g2 g3 g4
  have e1 : MIN_ORDER = 12 := rfl
  have e2 : MAX_ORDER = 20 := rfl
  have eN : N_PAGES = 256 := rfl
  have hb : buddyIdx p ord = p ^^^ 2 ^ (ord - MIN_ORDER) := buddyIdx_eq p ord g1
  have hkB : ord + 1 - MIN_ORDER = ord - MIN_ORDER + 1 := by omega
  have hdN : (2:Nat) ^ (ord - MIN_ORDER + 1) ∣ N_PAGES := by
    rw [eN, show (256:Nat) = 2 ^ 8 from rfl]
    exact pow_dvd_pow 2 (by omega)
  have hszpos : 0 < (2:Nat) ^ (ord - MIN_ORDER) := Nat.pos_pow_of_pos _ (by omega)
  have hsum : (2:Nat) ^ (ord - MIN_ORDER + 1) = 2 ^ (ord - MIN_ORDER) + 2 ^ (ord - MIN_ORDER) := by
    rw [pow_succ]; ring
  rcases buddy_step p (ord - MIN_ORDER) g3 with ⟨h1, h2⟩ | ⟨h1, h2, h3⟩
  · have hbv : buddyIdx p ord = p + 2 ^ (ord - MIN_ORDER) := by rw [hb, h1]
    have hmin : min (buddyIdx p ord) p = p := by omega
    have hbnd : p + 2 ^ (ord - MIN_ORDER + 1) ≤ N_PAGES := by
      refine aligned_bound p _ _ h2 hdN ?_
      omega
    have hgb : goodBlock (buddyIdx p ord, ord) := by
      refine ⟨g1, g2, ?_, ?_⟩
      · dsimp only
        rw [hbv]
        exact Dvd.dvd.add g3 dvd_rfl
      · dsimp only
        omega
    have hgm : goodBlock (min (buddyIdx p ord) p, ord+1) := by
      refine ⟨?_, ?_, ?_, ?_⟩ <;> dsimp only
      · omega
      · omega
      · rw [hmin, hkB]
        exact h2
      · rw [hmin, hkB]
        exact hbnd
    refine ⟨hgb, by omega, hgm, ?_, ?_⟩
    · intro pg
      rw [covers_iff, covers_iff, covers_iff]
      dsimp only
      rw [hkB]
      omega
    · intro pg
      rw [covers_iff, covers_iff]
      dsimp only
      omega
  · have hbv : buddyIdx p ord = p - 2 ^ (ord - MIN_ORDER) := by rw [hb, h1]
    have hmin : min (buddyIdx p ord) p = p - 2 ^ (ord - MIN_ORDER) := by omega
    have hbnd : (p - 2 ^ (ord - MIN_ORDER)) + 2 ^ (ord - MIN_ORDER + 1) ≤ N_PAGES := by
      omega
    have hgb : goodBlock (buddyIdx p ord, ord) := by
      refine ⟨g1, g2, ?_, ?_⟩
      · dsimp only
        rw [hbv]
        exact Nat.dvd_sub' g3 dvd_rfl
      · dsimp only
        omega
    have hgm : goodBlock (min (buddyIdx p ord) p, ord+1) := by
      refine ⟨?_, ?_, ?_, ?_⟩ <;> dsimp only
      · omega
      · omega
      · rw [hkB, hmin]
        exact h3
      · rw [hkB, hmin]
        exact hbnd
    refine ⟨hgb, by omega, hgm, ?_, ?_⟩
    · intro pg
      rw [covers_iff, covers_iff, covers_iff]
      dsimp only
      rw [hkB]
      omega
    · intro pg
      rw [covers_iff, covers_iff]
      dsimp only
      omega

/-- Under the partition bound, a page index sits in at most one free list. -/
theorem mem_only_list (s : BuddyState) (A : List (Nat × Nat))
    (hgood : ∀ b ∈ freeBlocks s, goodBlock b)
    (hcount : ∀ pg, pg < N_PAGES → (freeBlocks s ++ A).countP (fun b => covers b pg) ≤ 1)
    (i o : Nat) (ho : o ≤ MAX_ORDER) (hmem : i ∈ s.freeArea.getD o []) :
    ∀ q, q ≤ MAX_ORDER → q ≠ o → i ∉ s.freeArea.getD q [] := by
  intro q hq hne hmem'
  have hb1 : (i, o) ∈ freeBlocks s := (mem_freeBlocks s i o).mpr ⟨ho, hmem⟩
  have hb2 : (i, q) ∈ freeBlocks s := (mem_freeBlocks s i q).mpr ⟨hq, hmem'⟩
  have hg := hgood _ hb1
  obtain ⟨g1, g2, g3, g4⟩ := hg
  dsimp only at g4
  have hszpos : 0 < (2:Nat) ^ (o - MIN_ORDER) := Nat.pos_pow_of_pos _ (by omega)
  have hilt : i < N_PAGES := by omega
  have h2 := two_le_countP (fun b => covers b i) (freeBlocks s ++ A) (i, o) (i, q)
    (List.mem_append_left _ hb1) (List.mem_append_left _ hb2)
    (fun hcontra => hne ((congrArg Prod.snd hcontra).symm)) (covers_base _) (covers_base _)
  have := hcount i hilt
  omega

/-- The buddy map at a fixed order is an involution. -/
theorem buddyIdx_invol (i o : Nat) (h : MIN_ORDER ≤ o) :
    buddyIdx (buddyIdx i o) o = i := by
  rw [buddyIdx_eq i o h, buddyIdx_eq _ o h]
  exact Nat.xor_cancel_right _ _

/-- A page covered by the in-hand block is covered by no free or allocated
block. -/
theorem InvMid.no_other_covers {s : BuddyState} {A : List (Nat × Nat)} {p ord : Nat}
    (hmid : InvMid s A p ord) (pg : Nat) (hpg : covers (p, ord) pg = true) :
    ∀ b ∈ freeBlocks s ++ A, covers b pg = false := by
  have hlt : pg < N_PAGES := by
    rw [covers_iff] at hpg
    obtain ⟨_, _, _, g4⟩ := hmid.goodHand
    dsimp only at g4 hpg
    omega
  have h1 := hmid.partition pg hlt
  rw [if_pos hpg] at h1
  have h0 : (freeBlocks s ++ A).countP (fun b => covers b pg) = 0 := by omega
  intro b hb
  have := List.countP_eq_zero.mp h0 b hb
  simpa using this

/-- No page covered by the in-hand block is linked into any free list. -/
theorem InvMid.covered_not_listed {s : BuddyState} {A : List (Nat × Nat)} {p ord : Nat}
    (hmid : InvMid s A p ord) (pg : Nat) (hpg : covers (p, ord) pg = true) :
    ∀ q, q ≤ MAX_ORDER → pg ∉ s.freeArea.getD q [] := by
  intro q hq hmem
  have hb : (pg, q) ∈ freeBlocks s := (mem_freeBlocks s pg q).mpr ⟨hq, hmem⟩
  have := hmid.no_other_covers pg hpg (pg, q) (List.mem_append_left _ hb)
  rw [covers_base] at this
  exact Bool.true_eq_false ▸ this ▸ rfl

/-- The in-hand base page is not linked into any free list. -/
theorem InvMid.hand_not_listed {s : BuddyState} {A : List (Nat × Nat)} {p ord : Nat}
    (hmid : InvMid s A p ord) : ∀ q, q ≤ MAX_ORDER → p ∉ s.freeArea.getD q [] :=
  hmid.covered_not_listed p (covers_base _)

/-- No page covered by the in-hand block is the base of an outstanding
allocation. -/
theorem InvMid.covered_not_in_A {s : BuddyState} {A : List (Nat × Nat)} {p ord : Nat}
    (hmid : InvMid s A p ord) (pg : Nat) (hpg : covers (p, ord) pg = true) :
    ∀ b ∈ A, b.1 ≠ pg := by
  intro b hb hcontra
  have := hmid.no_other_covers pg hpg b (List.mem_append_right _ hb)
  rw [← hcontra, covers_base] at this
  exact Bool.true_eq_false ▸ this ▸ rfl

/-! ### Transition lemmas between Inv and InvMid -/

/-- Removing the head of a nonempty free list takes that block in hand. -/
theorem invMid_of_del (s : BuddyState) (A : List (Nat × Nat)) (j idx : Nat)
    (rest : List Nat) (hinv : Inv s A) (hj : j ≤ MAX_ORDER)
    (hl : s.freeArea.getD j [] = idx :: rest) :
    InvMid (listDelInit s idx) A idx j := by
  obtain ⟨hd, hgf, hga, hpart, hlist, hsound, halloc, hmax, hnd⟩ := hinv
  have hmem : idx ∈ s.freeArea.getD j [] := by rw [hl]; exact List.mem_cons_self _ _
  have hb : (idx, j) ∈ freeBlocks s := (mem_freeBlocks s idx j).mpr ⟨hj, hmem⟩
  have hgood : goodBlock (idx, j) := hgf _ hb
  have hidxlt : idx < N_PAGES := by
    obtain ⟨g1, g2, g3, g4⟩ := hgood
    dsimp only at g4
    have : 0 < (2:Nat) ^ (j - MIN_ORDER) := Nat.pos_pow_of_pos _ (by omega)
    omega
  have honly : ∀ q, q ≤ MAX_ORDER → q ≠ j → idx ∉ s.freeArea.getD q [] :=
    mem_only_list s A hgf (fun pg hpg => le_of_eq (hpart pg hpg)) idx j hj hmem
  have hperm : freeBlocks s ~ (idx, j) :: freeBlocks (listDelInit s idx) :=
    freeBlocks_listDelInit s idx j hj hmem honly
  have hmemdel : ∀ q i, i ∈ (listDelInit s idx).freeArea.getD q [] →
      i ∈ s.freeArea.getD q [] := by
    intro q i hi
    rw [listDelInit_freeArea] at hi
    exact List.mem_of_mem_erase hi
  have hne_of_mem : ∀ q, q ≤ MAX_ORDER → ∀ i,
      i ∈ (listDelInit s idx).freeArea.getD q [] → i ≠ idx := by
    intro q hq i hi heq
    subst heq
    rw [listDelInit_freeArea] at hi
    by_cases hqj : q = j
    · subst hqj
      exact (hnd q hq).not_mem_erase hi
    · exact honly q hq hqj (List.mem_of_mem_erase hi)
  refine ⟨hd.listDelInit idx, ?_, hga, hgood, ?_, ?_, ?_, ?_, ?_, ?_, ?_⟩
  · intro b hbm
    exact hgf _ (hperm.mem_iff.mpr (List.mem_cons_of_mem _ hbm))
  · exact listDelInit_unlinked_self s idx (by rw [hd.2.1]; exact hidxlt)
  · intro pg hpg
    have e : freeBlocks s ++ A ~ (idx, j) :: (freeBlocks (listDelInit s idx) ++ A) :=
      hperm.append_right A
    have h1 := hpart pg hpg
    rw [e.countP_eq, List.countP_cons] at h1
    omega
  · intro o ho i hi
    have hi' := hmemdel o i hi
    have hne : i ≠ idx := hne_of_mem o ho i hi
    obtain ⟨e1, e2⟩ := hlist o ho i hi'
    exact ⟨e1, by rw [listDelInit_unlinked_ne s idx i (fun h => hne h.symm)]; exact e2⟩
  · intro i hi o hu hp
    by_cases hne : i = idx
    · subst hne
      rw [listDelInit_unlinked_self s i (by rw [hd.2.1]; exact hidxlt)] at hu
      exact absurd hu (by simp)
    · rw [listDelInit_unlinked_ne s idx i (fun h => hne h.symm)] at hu
      have := hsound i hi o hu hp
      rw [listDelInit_freeArea]
      exact (List.mem_erase_of_ne hne).mpr this
  · intro b hbA
    obtain ⟨e1, e2⟩ := halloc b hbA
    have hne : b.1 ≠ idx := by
      intro heq
      have := (hlist j hj idx hmem).2
      rw [← heq] at this
      rw [this] at e2
      exact absurd e2 (by simp)
    exact ⟨e1, by rw [listDelInit_unlinked_ne s idx b.1 (fun h => hne h.symm)]; exact e2⟩
  · intro o ho i hi
    intro hcontra
    exact hmax o ho i (hmemdel o i hi) (hmemdel o _ hcontra)
  · intro o ho
    rw [listDelInit_freeArea]
    exact (hnd o ho).erase idx

/-- Recording the requested order in the in-hand block's descriptor turns it
into an outstanding allocation. -/
theorem inv_of_alloc_exit (s : BuddyState) (A : List (Nat × Nat)) (idx o : Nat)
    (hmid : InvMid s A idx o) :
    Inv (setOrder s idx ((o : Nat) : Int)) ((idx, o) :: A) := by
  obtain ⟨hd, hgf, hga, hgh, hhu, hpart, hlist, hsound, halloc, hmax, hnd⟩ := hmid
  have hmid' : InvMid s A idx o := ⟨hd, hgf, hga, hgh, hhu, hpart, hlist, hsound, halloc, hmax, hnd⟩
  have hidxlt : idx < N_PAGES := by
    obtain ⟨g1, g2, g3, g4⟩ := hgh
    dsimp only at g4
    have : 0 < (2:Nat) ^ (o - MIN_ORDER) := Nat.pos_pow_of_pos _ (by omega)
    omega
  have hnotl := hmid'.hand_not_listed
  refine ⟨hd.setOrder idx _, hgf, ?_, ?_, ?_, ?_, ?_, hmax, hnd⟩
  · intro b hbm
    rcases List.mem_cons.mp hbm with rfl | hbm
    · exact hgh
    · exact hga b hbm
  · intro pg hpg
    have e : freeBlocks (setOrder s idx ((o : Nat) : Int)) ++ ((idx, o) :: A) ~
        (idx, o) :: (freeBlocks s ++ A) := by
      rw [freeBlocks_setOrder]
      exact List.perm_middle
    rw [e.countP_eq, List.countP_cons]
    have := hpart pg hpg
    omega
  · intro q hq i hi
    rw [setOrder_freeArea] at hi
    have hne : i ≠ idx := fun heq => hnotl q hq (heq ▸ hi)
    obtain ⟨e1, e2⟩ := hlist q hq i hi
    exact ⟨by rw [setOrder_pageOrder_ne s idx i _ (fun h => hne h.symm)]; exact e1, e2⟩
  · intro i hi q hu hp
    rw [setOrder_unlinked] at hu
    by_cases hne : i = idx
    · subst hne
      rw [hu] at hhu
      exact absurd hhu (by simp)
    · rw [setOrder_pageOrder_ne s idx i _ (fun h => hne h.symm)] at hp
      rw [setOrder_freeArea]
      exact hsound i hi q hu hp
  · intro b hbm
    rcases List.mem_cons.mp hbm with rfl | hbm
    · exact ⟨setOrder_pageOrder_self s idx _ (by rw [hd.1]; exact hidxlt), hhu⟩
    · obtain ⟨e1, e2⟩ := halloc b hbm
      have hne : b.1 ≠ idx := hmid'.covered_not_in_A idx (covers_base _) b hbm
      exact ⟨by rw [setOrder_pageOrder_ne s idx b.1 _ (fun h => hne h.symm)]; exact e1, e2⟩

/-- perm_cons_erase for any lawful BEq instance (the derived Prod instance
differs definitionally from the DecidableEq-induced one). -/
theorem perm_cons_erase_beq {α : Type} [BEq α] [LawfulBEq α] {a : α} :
    ∀ {l : List α}, a ∈ l → l ~ a :: l.erase a
  | [], h => absurd h (List.not_mem_nil a)
  | b :: t, h => by
    by_cases hb : b = a
    · subst hb
      rw [List.erase_cons_head]
    · have hbeq : ¬(b == a) = true := by simpa using hb
      rw [List.erase_cons_tail (by simpa using hb)]
      have h' : a ∈ t := by
        rcases List.mem_cons.mp h with rfl | h'
        · exact absurd rfl hb
        · exact h'
      calc b :: t ~ b :: a :: t.erase a := (perm_cons_erase_beq h').cons b
        _ ~ a :: b :: t.erase a := List.Perm.swap a b _

/-- A well-behaved free takes the released block in hand. -/
theorem invMid_of_free_entry (s : BuddyState) (A : List (Nat × Nat)) (i o : Nat)
    (hinv : Inv s A) (hmem : (i, o) ∈ A) :
    InvMid s (A.erase (i, o)) i o := by
  obtain ⟨hd, hgf, hga, hpart, hlist, hsound, halloc, hmax, hnd⟩ := hinv
  have hperm : A ~ (i, o) :: A.erase (i, o) := perm_cons_erase_beq hmem
  refine ⟨hd, hgf, ?_, hga _ hmem, (halloc _ hmem).2, ?_, hlist, hsound, ?_, hmax, hnd⟩
  · intro b hbm
    exact hga b (List.mem_of_mem_erase hbm)
  · intro pg hpg
    have e : freeBlocks s ++ A ~ (i, o) :: (freeBlocks s ++ A.erase (i, o)) := by
      calc freeBlocks s ++ A ~ freeBlocks s ++ ((i, o) :: A.erase (i, o)) :=
            hperm.append_left _
        _ ~ (i, o) :: (freeBlocks s ++ A.erase (i, o)) := List.perm_middle
    have h1 := hpart pg hpg
    rw [e.countP_eq, List.countP_cons] at h1
    omega
  · intro b hbm
    exact halloc b (List.mem_of_mem_erase hbm)

/-- One split step: the in-hand block (p, c) is halved; the upper half — the
buddy of p at order c-1 — gets order c-1 written to its descriptor and is
pushed onto free list c-1, while the lower half (p, c-1) stays in hand. -/
theorem invMid_split_step (s : BuddyState) (A : List (Nat × Nat)) (p c : Nat)
    (hmid : InvMid s A p c) (hc : MIN_ORDER < c) :
    InvMid (listAdd (setOrder s (buddyIdx p (c-1)) ((c-1 : Nat) : Int))
      (buddyIdx p (c-1)) (c-1)) A p (c-1) := by
  obtain ⟨hd, hgf, hga, hgh, hhu, hpart, hlist, hsound, halloc, hmax, hnd⟩ := hmid
  have hmid' : InvMid s A p c :=
    ⟨hd, hgf, hga, hgh, hhu, hpart, hlist, hsound, halloc, hmax, hnd⟩
  obtain ⟨hbv, hgp', hgb', hcoveq, hcovdisj⟩ := split_geometry p c hgh hc
  rw [← hbv] at hgb' hcoveq hcovdisj
  have hc2 : c ≤ MAX_ORDER := hgh.2.1
  have hk : c - 1 - MIN_ORDER + 1 = c - MIN_ORDER := by omega
  have hsz : (2:Nat) ^ (c - MIN_ORDER) = 2 ^ (c-1-MIN_ORDER) + 2 ^ (c-1-MIN_ORDER) := by
    rw [← hk, pow_succ]
    ring
  have hpos : 0 < (2:Nat) ^ (c-1-MIN_ORDER) := Nat.pos_pow_of_pos _ (by omega)
  have hbcov : covers (p, c) (buddyIdx p (c-1)) = true := by
    rw [covers_iff]
    dsimp only
    omega
  have hbnot : ∀ q, q ≤ MAX_ORDER → buddyIdx p (c-1) ∉ s.freeArea.getD q [] :=
    hmid'.covered_not_listed _ hbcov
  have hbA : ∀ bb ∈ A, bb.1 ≠ buddyIdx p (c-1) := hmid'.covered_not_in_A _ hbcov
  have hpnot : ∀ q, q ≤ MAX_ORDER → p ∉ s.freeArea.getD q [] := hmid'.hand_not_listed
  have hbnep : buddyIdx p (c-1) ≠ p := by omega
  have hblt : buddyIdx p (c-1) < N_PAGES := by
    obtain ⟨_, _, _, g4⟩ := hgb'
    dsimp only at g4
    omega
  have hperm : freeBlocks (listAdd (setOrder s (buddyIdx p (c-1)) ((c-1 : Nat) : Int))
      (buddyIdx p (c-1)) (c-1)) ~ (buddyIdx p (c-1), c-1) :: freeBlocks s := by
    have h := freeBlocks_listAdd (setOrder s (buddyIdx p (c-1)) ((c-1 : Nat) : Int))
      (buddyIdx p (c-1)) (c-1) (hd.setOrder _ _) (by omega)
    rw [freeBlocks_setOrder] at h
    exact h
  have hfa_self : (listAdd (setOrder s (buddyIdx p (c-1)) ((c-1 : Nat) : Int))
      (buddyIdx p (c-1)) (c-1)).freeArea.getD (c-1) [] =
      buddyIdx p (c-1) :: s.freeArea.getD (c-1) [] := by
    rw [listAdd_freeArea_self _ _ _ (by rw [setOrder_freeArea, hd.2.2]; omega),
      setOrder_freeArea]
  have hfa_ne : ∀ q, q ≠ c-1 → (listAdd (setOrder s (buddyIdx p (c-1)) ((c-1 : Nat) : Int))
      (buddyIdx p (c-1)) (c-1)).freeArea.getD q [] = s.freeArea.getD q [] := by
    intro q hq
    rw [listAdd_freeArea_ne _ _ _ _ (fun h => hq h.symm), setOrder_freeArea]
  have hpo_self : (listAdd (setOrder s (buddyIdx p (c-1)) ((c-1 : Nat) : Int))
      (buddyIdx p (c-1)) (c-1)).pageOrder.getD (buddyIdx p (c-1)) (-1) = ((c-1 : Nat) : Int) := by
    rw [listAdd_pageOrder, setOrder_pageOrder_self _ _ _ (by rw [hd.1]; exact hblt)]
  have hpo_ne : ∀ j, j ≠ buddyIdx p (c-1) →
      (listAdd (setOrder s (buddyIdx p (c-1)) ((c-1 : Nat) : Int))
        (buddyIdx p (c-1)) (c-1)).pageOrder.getD j (-1) = s.pageOrder.getD j (-1) := by
    intro j hj
    rw [listAdd_pageOrder, setOrder_pageOrder_ne _ _ _ _ (fun h => hj h.symm)]
  have hun_self : (listAdd (setOrder s (buddyIdx p (c-1)) ((c-1 : Nat) : Int))
      (buddyIdx p (c-1)) (c-1)).nodeUnlinked.getD (buddyIdx p (c-1)) false = false :=
    listAdd_unlinked_self _ _ _ (by rw [setOrder_unlinked, hd.2.1]; exact hblt)
  have hun_ne : ∀ j, j ≠ buddyIdx p (c-1) →
      (listAdd (setOrder s (buddyIdx p (c-1)) ((c-1 : Nat) : Int))
        (buddyIdx p (c-1)) (c-1)).nodeUnlinked.getD j false =
        s.nodeUnlinked.getD j false := by
    intro j hj
    rw [listAdd_unlinked_ne _ _ _ _ (fun h => hj h.symm), setOrder_unlinked]
  refine ⟨(hd.setOrder _ _).listAdd _ _, ?_, hga, hgp', ?_, ?_, ?_, ?_, ?_, ?_, ?_⟩
  · intro bb hbb
    rcases List.mem_cons.mp (hperm.mem_iff.mp hbb) with rfl | hbb'
    · exact hgb'
    · exact hgf _ hbb'
  · rw [hun_ne p (fun h => hbnep h.symm)]
    exact hhu
  · intro pg hpg
    rw [(hperm.append_right A).countP_eq, List.cons_append, List.countP_cons]
    have h1 := hpart pg hpg
    have h2 := hcoveq pg
    have h3 := hcovdisj pg
    by_cases hx : covers (p, c-1) pg = true <;> by_cases hy : covers (buddyIdx p (c-1), c-1) pg = true
    · exact absurd ⟨hx, hy⟩ h3
    · have hpc : covers (p, c) pg = true := h2.mpr (Or.inl hx)
      rw [if_pos hpc] at h1
      rw [if_pos hx, if_neg hy]
      omega
    · have hpc : covers (p, c) pg = true := h2.mpr (Or.inr hy)
      rw [if_pos hpc] at h1
      rw [if_neg hx, if_pos hy]
      omega
    · have hpc : ¬covers (p, c) pg = true := fun h => by
        rcases h2.mp h with h' | h'
        · exact hx h'
        · exact hy h'
      rw [if_neg hpc] at h1
      rw [if_neg hx, if_neg hy]
      omega
  · intro q hq i hi
    by_cases hqc : q = c-1
    · subst hqc
      rw [hfa_self] at hi
      rcases List.mem_cons.mp hi with rfl | hi'
      · exact ⟨hpo_self, hun_self⟩
      · have hne : i ≠ buddyIdx p (c-1) := fun h => hbnot _ hq (h ▸ hi')
        obtain ⟨e1, e2⟩ := hlist _ hq i hi'
        exact ⟨by rw [hpo_ne i hne]; exact e1, by rw [hun_ne i hne]; exact e2⟩
    · rw [hfa_ne q hqc] at hi
      have hne : i ≠ buddyIdx p (c-1) := fun h => hbnot q hq (h ▸ hi)
      obtain ⟨e1, e2⟩ := hlist q hq i hi
      exact ⟨by rw [hpo_ne i hne]; exact e1, by rw [hun_ne i hne]; exact e2⟩
  · intro i hi o hu hp
    by_cases hne : i = buddyIdx p (c-1)
    · subst hne
      rw [hpo_self] at hp
      have ho : o = c - 1 := by omega
      subst ho
      rw [hfa_self]
      exact List.mem_cons_self _ _
    · rw [hun_ne i hne] at hu
      rw [hpo_ne i hne] at hp
      have := hsound i hi o hu hp
      by_cases hoc : o = c-1
      · subst hoc
        rw [hfa_self]
        exact List.mem_cons_of_mem _ this
      · rw [hfa_ne o hoc]
        exact this
  · intro bb hbb
    obtain ⟨e1, e2⟩ := halloc bb hbb
    have hne : bb.1 ≠ buddyIdx p (c-1) := hbA bb hbb
    exact ⟨by rw [hpo_ne bb.1 hne]; exact e1, by rw [hun_ne bb.1 hne]; exact e2⟩
  · intro o ho i hi hcontra
    by_cases hoc : o = c-1
    · subst hoc
      rw [hfa_self] at hi hcontra
      rcases List.mem_cons.mp hi with rfl | hi'
      · rw [buddyIdx_invol p (c-1) (by omega)] at hcontra
        rcases List.mem_cons.mp hcontra with h' | h'
        · exact hbnep h'.symm
        · exact hpnot _ (by omega) h'
      · rcases List.mem_cons.mp hcontra with h' | h'
        · have : i = p := by
            have h2 := congrArg (fun x => buddyIdx x (c-1)) h'
            dsimp only at h2
            rw [buddyIdx_invol i (c-1) (by omega),
              buddyIdx_invol p (c-1) (by omega)] at h2
            exact h2
          rw [this] at hi'
          exact hpnot _ (by omega) hi'
        · exact hmax _ ho i hi' h'
    · rw [hfa_ne o hoc] at hi hcontra
      exact hmax o ho i hi hcontra
  · intro q hq
    by_cases hqc : q = c-1
    · subst hqc
      rw [hfa_self]
      exact List.nodup_cons.mpr ⟨hbnot _ hq, hnd _ hq⟩
    · rw [hfa_ne q hqc]
      exact hnd q hq

/-- One coalescing step of buddy_free: when the buddy of the in-hand block
(p, ord) passes the check — its order field equals ord and its node is
linked — it really is a member of free list ord; it is unlinked and the
merged parent block, based at the smaller of the two bases, is taken in
hand at order ord + 1. -/
theorem invMid_merge_step (s : BuddyState) (A : List (Nat × Nat)) (p ord : Nat)
    (hmid : InvMid s A p ord) (hord : ord < MAX_ORDER)
    (hchk1 : s.pageOrder.getD (buddyIdx p ord) (-1) = (ord : Int))
    (hchk2 : s.nodeUnlinked.getD (buddyIdx p ord) false = false) :
    buddyIdx p ord ∈ s.freeArea.getD ord [] ∧
    InvMid (listDelInit s (buddyIdx p ord)) A (min (buddyIdx p ord) p) (ord+1) := by
  obtain ⟨hd, hgf, hga, hgh, hhu, hpart, hlist, hsound, halloc, hmax, hnd⟩ := hmid
  have hmid' : InvMid s A p ord :=
    ⟨hd, hgf, hga, hgh, hhu, hpart, hlist, hsound, halloc, hmax, hnd⟩
  obtain ⟨hgb, hbnep, hgm, hcoveq, hcovdisj⟩ := merge_geometry p ord hgh hord
  have hblt : buddyIdx p ord < N_PAGES := by
    obtain ⟨_, _, _, g4⟩ := hgb
    dsimp only at g4
    have : 0 < (2:Nat) ^ (ord - MIN_ORDER) := Nat.pos_pow_of_pos _ (by omega)
    omega
  have hbmem : buddyIdx p ord ∈ s.freeArea.getD ord [] :=
    hsound _ hblt ord hchk2 hchk1
  have hcount_le : ∀ pg, pg < N_PAGES →
      (freeBlocks s ++ A).countP (fun b => covers b pg) ≤ 1 := by
    intro pg hpg
    have := hpart pg hpg
    omega
  have honly : ∀ q, q ≤ MAX_ORDER → q ≠ ord → buddyIdx p ord ∉ s.freeArea.getD q [] :=
    mem_only_list s A hgf hcount_le _ ord (by omega) hbmem
  have hperm : freeBlocks s ~ (buddyIdx p ord, ord) :: freeBlocks (listDelInit s (buddyIdx p ord)) :=
    freeBlocks_listDelInit s _ ord (by omega) hbmem honly
  have hpnot : ∀ q, q ≤ MAX_ORDER → p ∉ s.freeArea.getD q [] := hmid'.hand_not_listed
  have hbArel : ∀ bb ∈ A, bb.1 ≠ buddyIdx p ord := by
    intro bb hbb heq
    have := (halloc bb hbb).2
    rw [heq, hchk2] at this
    exact absurd this (by simp)
  have hmemdel : ∀ q i, i ∈ (listDelInit s (buddyIdx p ord)).freeArea.getD q [] →
      i ∈ s.freeArea.getD q [] := by
    intro q i hi
    rw [listDelInit_freeArea] at hi
    exact List.mem_of_mem_erase hi
  have hne_of_mem : ∀ q, q ≤ MAX_ORDER → ∀ i,
      i ∈ (listDelInit s (buddyIdx p ord)).freeArea.getD q [] → i ≠ buddyIdx p ord := by
    intro q hq i hi heq
    subst heq
    rw [listDelInit_freeArea] at hi
    by_cases hqo : q = ord
    · subst hqo
      exact (hnd q hq).not_mem_erase hi
    · exact honly q hq hqo (List.mem_of_mem_erase hi)
  have hmin_cases : min (buddyIdx p ord) p = buddyIdx p ord ∨ min (buddyIdx p ord) p = p := by
    omega
  refine ⟨hbmem, hd.listDelInit _, ?_, hga, hgm, ?_, ?_, ?_, ?_, ?_, ?_, ?_⟩
  · intro b hbm
    exact hgf _ (hperm.mem_iff.mpr (List.mem_cons_of_mem _ hbm))
  · rcases hmin_cases with hm | hm <;> rw [hm]
    · exact listDelInit_unlinked_self s _ (by rw [hd.2.1]; exact hblt)
    · rw [listDelInit_unlinked_ne s _ p hbnep]
      exact hhu
  · intro pg hpg
    have e : freeBlocks s ++ A ~
        (buddyIdx p ord, ord) :: (freeBlocks (listDelInit s (buddyIdx p ord)) ++ A) :=
      hperm.append_right A
    have h1 := hpart pg hpg
    rw [e.countP_eq, List.countP_cons] at h1
    have h2 := hcoveq pg
    have h3 := hcovdisj pg
    by_cases hx : covers (p, ord) pg = true <;>
      by_cases hy : covers (buddyIdx p ord, ord) pg = true
    · exact absurd ⟨hx, hy⟩ h3
    · have hm : covers (min (buddyIdx p ord) p, ord+1) pg = true := h2.mpr (Or.inl hx)
      rw [if_pos hx, if_neg hy] at h1
      rw [if_pos hm]
      omega
    · have hm : covers (min (buddyIdx p ord) p, ord+1) pg = true := h2.mpr (Or.inr hy)
      rw [if_neg hx, if_pos hy] at h1
      rw [if_pos hm]
      omega
    · have hm : ¬covers (min (buddyIdx p ord) p, ord+1) pg = true := fun h => by
        rcases h2.mp h with h' | h'
        · exact hx h'
        · exact hy h'
      rw [if_neg hx, if_neg hy] at h1
      rw [if_neg hm]
      omega
  · intro o ho i hi
    have hi' := hmemdel o i hi
    have hne : i ≠ buddyIdx p ord := hne_of_mem o ho i hi
    obtain ⟨e1, e2⟩ := hlist o ho i hi'
    exact ⟨e1, by rw [listDelInit_unlinked_ne s _ i (fun h => hne h.symm)]; exact e2⟩
  · intro i hi o hu hp
    by_cases hne : i = buddyIdx p ord
    · subst hne
      rw [listDelInit_unlinked_self s _ (by rw [hd.2.1]; exact hblt)] at hu
      exact absurd hu (by simp)
    · rw [listDelInit_unlinked_ne s _ i (fun h => hne h.symm)] at hu
      have := hsound i hi o hu hp
      rw [listDelInit_freeArea]
      exact (List.mem_erase_of_ne hne).mpr this
  · intro bb hbb
    obtain ⟨e1, e2⟩ := halloc bb hbb
    exact ⟨e1, by
      rw [listDelInit_unlinked_ne s _ bb.1 (fun h => (hbArel bb hbb) h.symm)]
      exact e2⟩
  · intro o ho i hi hcontra
    exact hmax o ho i (hmemdel o i hi) (hmemdel o _ hcontra)
  · intro o ho
    rw [listDelInit_freeArea]
    exact (hnd o ho).erase _

/-- Exit of the coalescing loop: the in-hand block gets its final order
written to its descriptor and is pushed onto that order's free list.  The
loop may only stop at MAX_ORDER or when the buddy check fails, which is
exactly what keeps the result maximally coalesced. -/
theorem inv_of_free_exit (s : BuddyState) (A : List (Nat × Nat)) (p ord : Nat)
    (hmid : InvMid s A p ord)
    (hstop : ord = MAX_ORDER ∨
      ¬(s.pageOrder.getD (buddyIdx p ord) (-1) = (ord : Int) ∧
        s.nodeUnlinked.getD (buddyIdx p ord) false = false)) :
    Inv (listAdd (setOrder s p (ord : Int)) p ord) A := by
  obtain ⟨hd, hgf, hga, hgh, hhu, hpart, hlist, hsound, halloc, hmax, hnd⟩ := hmid
  have hmid' : InvMid s A p ord :=
    ⟨hd, hgf, hga, hgh, hhu, hpart, hlist, hsound, halloc, hmax, hnd⟩
  have hplt : p < N_PAGES := by
    obtain ⟨_, _, _, g4⟩ := hgh
    dsimp only at g4
    have : 0 < (2:Nat) ^ (ord - MIN_ORDER) := Nat.pos_pow_of_pos _ (by omega)
    omega
  have hordm : MIN_ORDER ≤ ord := hgh.1
  have hord2 : ord ≤ MAX_ORDER := hgh.2.1
  have hpnot : ∀ q, q ≤ MAX_ORDER → p ∉ s.freeArea.getD q [] := hmid'.hand_not_listed
  have hpA : ∀ bb ∈ A, bb.1 ≠ p := hmid'.covered_not_in_A p (covers_base _)
  have hperm : freeBlocks (listAdd (setOrder s p (ord : Int)) p ord) ~
      (p, ord) :: freeBlocks s := by
    have h := freeBlocks_listAdd (setOrder s p (ord : Int)) p ord (hd.setOrder _ _) hord2
    rw [freeBlocks_setOrder] at h
    exact h
  have hfa_self : (listAdd (setOrder s p (ord : Int)) p ord).freeArea.getD ord [] =
      p :: s.freeArea.getD ord [] := by
    rw [listAdd_freeArea_self _ _ _ (by rw [setOrder_freeArea, hd.2.2]; omega),
      setOrder_freeArea]
  have hfa_ne : ∀ q, q ≠ ord →
      (listAdd (setOrder s p (ord : Int)) p ord).freeArea.getD q [] =
        s.freeArea.getD q [] := by
    intro q hq
    rw [listAdd_freeArea_ne _ _ _ _ (fun h => hq h.symm), setOrder_freeArea]
  have hpo_self : (listAdd (setOrder s p (ord : Int)) p ord).pageOrder.getD p (-1) =
      (ord : Int) := by
    rw [listAdd_pageOrder, setOrder_pageOrder_self _ _ _ (by rw [hd.1]; exact hplt)]
  have hpo_ne : ∀ j, j ≠ p →
      (listAdd (setOrder s p (ord : Int)) p ord).pageOrder.getD j (-1) =
        s.pageOrder.getD j (-1) := by
    intro j hj
    rw [listAdd_pageOrder, setOrder_pageOrder_ne _ _ _ _ (fun h => hj h.symm)]
  have hun_self : (listAdd (setOrder s p (ord : Int)) p ord).nodeUnlinked.getD p false =
      false :=
    listAdd_unlinked_self _ _ _ (by rw [setOrder_unlinked, hd.2.1]; exact hplt)
  have hun_ne : ∀ j, j ≠ p →
      (listAdd (setOrder s p (ord : Int)) p ord).nodeUnlinked.getD j false =
        s.nodeUnlinked.getD j false := by
    intro j hj
    rw [listAdd_unlinked_ne _ _ _ _ (fun h => hj h.symm), setOrder_unlinked]
  refine ⟨(hd.setOrder _ _).listAdd _ _, ?_, hga, ?_, ?_, ?_, ?_, ?_, ?_⟩
  · intro bb hbb
    rcases List.mem_cons.mp (hperm.mem_iff.mp hbb) with rfl | hbb'
    · exact hgh
    · exact hgf _ hbb'
  · intro pg hpg
    rw [(hperm.append_right A).countP_eq, List.cons_append, List.countP_cons]
    have h1 := hpart pg hpg
    omega
  · intro q hq i hi
    by_cases hqo : q = ord
    · subst hqo
      rw [hfa_self] at hi
      rcases List.mem_cons.mp hi with rfl | hi'
      · exact ⟨hpo_self, hun_self⟩
      · have hne : i ≠ p := fun h => hpnot _ hq (h ▸ hi')
        obtain ⟨e1, e2⟩ := hlist _ hq i hi'
        exact ⟨by rw [hpo_ne i hne]; exact e1, by rw [hun_ne i hne]; exact e2⟩
    · rw [hfa_ne q hqo] at hi
      have hne : i ≠ p := fun h => hpnot q hq (h ▸ hi)
      obtain ⟨e1, e2⟩ := hlist q hq i hi
      exact ⟨by rw [hpo_ne i hne]; exact e1, by rw [hun_ne i hne]; exact e2⟩
  · intro i hi o hu hp
    by_cases hne : i = p
    · subst hne
      rw [hpo_self] at hp
      have ho : o = ord := by omega
      subst ho
      rw [hfa_self]
      exact List.mem_cons_self _ _
    · rw [hun_ne i hne] at hu
      rw [hpo_ne i hne] at hp
      have := hsound i hi o hu hp
      by_cases hoo : o = ord
      · subst hoo
        rw [hfa_self]
        exact List.mem_cons_of_mem _ this
      · rw [hfa_ne o hoo]
        exact this
  · intro bb hbb
    obtain ⟨e1, e2⟩ := halloc bb hbb
    have hne : bb.1 ≠ p := hpA bb hbb
    exact ⟨by rw [hpo_ne bb.1 hne]; exact e1, by rw [hun_ne bb.1 hne]; exact e2⟩
  · intro o ho i hi hcontra
    have hstop' : ¬(s.pageOrder.getD (buddyIdx p ord) (-1) = (ord : Int) ∧
        s.nodeUnlinked.getD (buddyIdx p ord) false = false) → True := fun _ => trivial
    by_cases hoo : o = ord
    · subst hoo
      have hstopo : ¬(s.pageOrder.getD (buddyIdx p o) (-1) = (o : Int) ∧
          s.nodeUnlinked.getD (buddyIdx p o) false = false) := by
        rcases hstop with h | h
        · omega
        · exact h
      rw [hfa_self] at hi hcontra
      rcases List.mem_cons.mp hi with rfl | hi'
      · rcases List.mem_cons.mp hcontra with h' | h'
        · exact buddyIdx_ne i o hordm h'
        · obtain ⟨e1, e2⟩ := hlist o (by omega) _ h'
          exact hstopo ⟨e1, e2⟩
      · rcases List.mem_cons.mp hcontra with h' | h'
        · have hieq : i = buddyIdx p o := by
            have h2 := congrArg (fun x => buddyIdx x o) h'
            dsimp only at h2
            rw [buddyIdx_invol i o hordm] at h2
            exact h2
          obtain ⟨e1, e2⟩ := hlist o (by omega) i hi'
          rw [hieq] at e1 e2
          exact hstopo ⟨e1, e2⟩
        · exact hmax o ho i hi' h'
    · rw [hfa_ne o hoo] at hi hcontra
      exact hmax o ho i hi hcontra
  · intro q hq
    by_cases hqo : q = ord
    · subst hqo
      rw [hfa_self]
      exact List.nodup_cons.mpr ⟨hpnot _ hq, hnd _ hq⟩
    · rw [hfa_ne q hqo]
      exact hnd q hq

/-- Page index and address conversions cancel. -/
theorem addrToPage_pageToAddr (i : Nat) : addrToPage (pageToAddr i) = i := by
  rw [addrToPage, pageToAddr]
  exact Nat.mul_div_cancel i (by rw [PAGE_SIZE]; positivity)

theorem alignB_self (p q : Nat) (h : 2 ^ (q - MIN_ORDER) ∣ p) : alignB p q = p :=
  Nat.mul_div_cancel' h

/-- The base that survives one merge step is the base of the parent dyadic
block. -/
theorem align_merge (p ord : Nat) (hal : 2 ^ (ord - MIN_ORDER) ∣ p)
    (hmin : MIN_ORDER ≤ ord) :
    min (buddyIdx p ord) p = alignB p (ord+1) := by
  have hb : buddyIdx p ord = p ^^^ 2 ^ (ord - MIN_ORDER) := buddyIdx_eq p ord hmin
  have hk1 : ord + 1 - MIN_ORDER = (ord - MIN_ORDER) + 1 := by omega
  have hpos : 0 < (2:Nat) ^ (ord - MIN_ORDER) := Nat.pos_pow_of_pos _ (by omega)
  rcases buddy_step p (ord - MIN_ORDER) hal with ⟨h1, h2⟩ | ⟨h1, h2, h3⟩
  · have hbv : buddyIdx p ord = p + 2 ^ (ord - MIN_ORDER) := by rw [hb, h1]
    have hmin' : min (buddyIdx p ord) p = p := by omega
    rw [hmin', alignB, hk1]
    exact (Nat.mul_div_cancel' h2).symm
  · have hbv : buddyIdx p ord = p - 2 ^ (ord - MIN_ORDER) := by rw [hb, h1]
    have hmin' : min (buddyIdx p ord) p = p - 2 ^ (ord - MIN_ORDER) := by omega
    rw [hmin', alignB, hk1]
    obtain ⟨m, hm⟩ := h3
    have hp : p = 2 ^ (ord - MIN_ORDER + 1) * m + 2 ^ (ord - MIN_ORDER) := by
      have : (2:Nat) ^ (ord - MIN_ORDER + 1) = 2 ^ (ord - MIN_ORDER) * 2 := by
        rw [pow_succ]
      omega
    have hdiv : p / 2 ^ (ord - MIN_ORDER + 1) = m := by
      rw [hp]
      rw [Nat.mul_add_div (Nat.pos_pow_of_pos _ (by omega))]
      have hlt : (2:Nat) ^ (ord - MIN_ORDER) < 2 ^ (ord - MIN_ORDER + 1) :=
        Nat.pow_lt_pow_of_lt (by omega) (by omega)
      rw [Nat.div_eq_of_lt hlt]
      omega
    rw [hdiv]
    omega

/-- Aligning twice is aligning to the coarser order. -/
theorem alignB_trans (p r q : Nat) (hrq : r ≤ q) :
    alignB (alignB p r) q = alignB p q := by
  have hsplit : (2:Nat) ^ (q - MIN_ORDER) =
      2 ^ (r - MIN_ORDER) * 2 ^ (q - MIN_ORDER - (r - MIN_ORDER)) := by
    rw [← pow_add]
    congr 1
    omega
  have hpos : 0 < (2:Nat) ^ (r - MIN_ORDER) := Nat.pos_pow_of_pos _ (by omega)
  have hdiv : (2 ^ (r - MIN_ORDER) * (p / 2 ^ (r - MIN_ORDER))) / 2 ^ (q - MIN_ORDER) =
      p / 2 ^ (q - MIN_ORDER) := by
    rw [hsplit, Nat.mul_div_mul_left _ _ hpos, Nat.div_div_eq_div_mul, ← hsplit]
  rw [alignB, alignB, alignB, hdiv]

/-- Chaining the split steps: the in-hand block descends from order t + n to
order t. -/
theorem invMid_splitGo (A : List (Nat × Nat)) (p t : Nat) (ht : MIN_ORDER ≤ t) :
    ∀ (n : Nat) (s : BuddyState), InvMid s A p (t + n) →
    InvMid (splitGo s p t n) A p t
  | 0, s, hmid => hmid
  | n+1, s, hmid => by
    have hstep := invMid_split_step s A p (t + (n+1)) hmid (by omega)
    have hstep' : InvMid (listAdd (setOrder s (buddyIdx p (t+n)) ((t+n : Nat) : Int))
        (buddyIdx p (t+n)) (t+n)) A p (t+n) := by
      have he : t + (n+1) - 1 = t + n := by omega
      rw [he] at hstep
      exact hstep
    exact invMid_splitGo A p t ht n _ hstep'

/-- Complete description of the coalescing loop of buddy_free on an
invariant state: it stops at some order ord' between the released order and
MAX_ORDER with the dyadic ancestor of the released block in hand, having
removed from each free list ord ≤ q < ord' exactly the buddy (at order q) of
the current chain block — a block that really was free at exactly order q —
and it only stops at MAX_ORDER or when the buddy check fails. -/
theorem freeGo_spec (A : List (Nat × Nat)) : ∀ (fuel : Nat) (s : BuddyState) (p ord : Nat),
    fuel = MAX_ORDER - ord → InvMid s A p ord →
    ∃ s' p' ord',
      freeGo fuel s p ord = (s', p', ord') ∧
      InvMid s' A p' ord' ∧
      ord ≤ ord' ∧ ord' ≤ MAX_ORDER ∧
      p' = alignB p ord' ∧
      (∀ q, q ≤ MAX_ORDER →
        s'.freeArea.getD q [] =
          if ord ≤ q ∧ q < ord' then
            (s.freeArea.getD q []).erase (buddyIdx (alignB p q) q)
          else s.freeArea.getD q []) ∧
      (∀ q, ord ≤ q → q < ord' → buddyIdx (alignB p q) q ∈ s.freeArea.getD q []) ∧
      (ord' = MAX_ORDER ∨
        ¬(s'.pageOrder.getD (buddyIdx p' ord') (-1) = (ord' : Int) ∧
          s'.nodeUnlinked.getD (buddyIdx p' ord') false = false))
  | 0, s, p, ord, hfuel, hmid => by
    have hord : ord = MAX_ORDER := by
      have := hmid.goodHand.2.1
      omega
    refine ⟨s, p, ord, rfl, hmid, Nat.le_refl _, by omega,
      (alignB_self p ord hmid.goodHand.2.2.1).symm, ?_, ?_, Or.inl hord⟩
    · intro q hq
      rw [if_neg (by omega)]
    · intro q h1 h2
      omega
  | fuel+1, s, p, ord, hfuel, hmid => by
    have hord : ord < MAX_ORDER := by omega
    have halp : 2 ^ (ord - MIN_ORDER) ∣ p := hmid.goodHand.2.2.1
    have hminO : MIN_ORDER ≤ ord := hmid.goodHand.1
    by_cases hchk : s.pageOrder.getD (buddyIdx p ord) (-1) = (ord : Int) ∧
        s.nodeUnlinked.getD (buddyIdx p ord) false = false
    · obtain ⟨hbmem, hmid1⟩ := invMid_merge_step s A p ord hmid hord hchk.1 hchk.2
      have hcount_le : ∀ pg, pg < N_PAGES →
          (freeBlocks s ++ A).countP (fun b => covers b pg) ≤ 1 := by
        intro pg hpg
        have := hmid.partition pg hpg
        omega
      have honly : ∀ q, q ≤ MAX_ORDER → q ≠ ord →
          buddyIdx p ord ∉ s.freeArea.getD q [] :=
        mem_only_list s A hmid.goodFree hcount_le _ ord (by omega) hbmem
      have hs1q : ∀ q, q ≤ MAX_ORDER → q ≠ ord →
          (listDelInit s (buddyIdx p ord)).freeArea.getD q [] = s.freeArea.getD q [] := by
        intro q hq hqo
        rw [listDelInit_freeArea, List.erase_of_not_mem (honly q hq hqo)]
      have hs1ord : (listDelInit s (buddyIdx p ord)).freeArea.getD ord [] =
          (s.freeArea.getD ord []).erase (buddyIdx p ord) := listDelInit_freeArea _ _ _
      obtain ⟨s', p', ord', heq, hmid', h1, h2, hp', hlists, hmems, hstop⟩ :=
        freeGo_spec A fuel (listDelInit s (buddyIdx p ord))
          (min (buddyIdx p ord) p) (ord+1) (by omega) hmid1
      have hmp : min (buddyIdx p ord) p = alignB p (ord+1) := align_merge p ord halp hminO
      have halign : ∀ q, ord + 1 ≤ q →
          alignB (min (buddyIdx p ord) p) q = alignB p q := by
        intro q hq
        rw [hmp, alignB_trans p (ord+1) q hq]
      have hres : freeGo (fuel+1) s p ord = (s', p', ord') := by
        simp only [freeGo]
        rw [if_pos hchk]
        exact heq
      have halB : alignB p ord = p := alignB_self p ord halp
      refine ⟨s', p', ord', hres, hmid', by omega, h2, ?_, ?_, ?_, hstop⟩
      · rw [hp', halign ord' h1]
      · intro q hq
        have hl := hlists q hq
        by_cases hcase : ord ≤ q ∧ q < ord'
        · rw [if_pos hcase]
          by_cases hqo : q = ord
          · subst hqo
            rw [if_neg (by omega)] at hl
            rw [hl, hs1ord, halB]
          · have hq1 : ord + 1 ≤ q := by omega
            rw [if_pos ⟨hq1, hcase.2⟩] at hl
            rw [hl, hs1q q hq hqo, halign q hq1]
        · rw [if_neg hcase]
          have hnotc : ¬(ord + 1 ≤ q ∧ q < ord') := by omega
          rw [if_neg hnotc] at hl
          rw [hl]
          by_cases hqo : q = ord
          · omega
          · exact hs1q q hq hqo
      · intro q hq1 hq2
        by_cases hqo : q = ord
        · subst hqo
          rw [halB]
          exact hbmem
        · have hq1' : ord + 1 ≤ q := by omega
          have := hmems q hq1' hq2
          rw [halign q hq1', hs1q q (by omega) hqo] at this
          exact this
    · refine ⟨s, p, ord, ?_, hmid, Nat.le_refl _, by omega,
        (alignB_self p ord halp).symm, ?_, ?_, Or.inr hchk⟩
      · simp only [freeGo]
        rw [if_neg hchk]
      · intro q hq
        rw [if_neg (by omega)]
      · intro q h1 h2
        omega

/-- Full free characterization on an invariant state: the result satisfies
the invariant with the block removed from the ghost list, each merged buddy
was free at exactly the loop's current order, and the free lists change in
exactly the described way. -/
theorem buddy_free_spec (s : BuddyState) (A : List (Nat × Nat)) (i o : Nat)
    (hinv : Inv s A) (hmem : (i, o) ∈ A) :
    ∃ k, o ≤ k ∧ k ≤ MAX_ORDER ∧
      Inv (buddy_free s (pageToAddr i)) (A.erase (i, o)) ∧
      (∀ q, o ≤ q → q < k → buddyIdx (alignB i q) q ∈ s.freeArea.getD q []) ∧
      (∀ q, q ≤ MAX_ORDER →
        (buddy_free s (pageToAddr i)).freeArea.getD q [] =
          if q = k then alignB i k :: s.freeArea.getD q []
          else if o ≤ q ∧ q < k then
            (s.freeArea.getD q []).erase (buddyIdx (alignB i q) q)
          else s.freeArea.getD q []) := by
  have hto : (s.pageOrder.getD i (-1)).toNat = o := by
    rw [(hinv.allocFlag _ hmem).1]
    simp
  have hmid0 := invMid_of_free_entry s A i o hinv hmem
  obtain ⟨s', p', ord', heq, hmid', h1, h2, hp', hlists, hmems, hstop⟩ :=
    freeGo_spec (A.erase (i, o)) (MAX_ORDER - o) s i o rfl hmid0
  have hkey : buddy_free s (pageToAddr i) = listAdd (setOrder s' p' (ord' : Int)) p' ord' := by
    rw [buddy_free]
    simp only [addrToPage_pageToAddr, hto, heq]
  have hdims' : Dims s' := hmid'.dims
  have hplt' : p' < N_PAGES := by
    obtain ⟨_, _, _, g4⟩ := hmid'.goodHand
    dsimp only at g4
    have : 0 < (2:Nat) ^ (ord' - MIN_ORDER) := Nat.pos_pow_of_pos _ (by omega)
    omega
  have hfa_self : (buddy_free s (pageToAddr i)).freeArea.getD ord' [] =
      p' :: s'.freeArea.getD ord' [] := by
    rw [hkey, listAdd_freeArea_self _ _ _ (by rw [setOrder_freeArea, hdims'.2.2]; omega),
      setOrder_freeArea]
  have hfa_ne : ∀ q, q ≠ ord' →
      (buddy_free s (pageToAddr i)).freeArea.getD q [] = s'.freeArea.getD q [] := by
    intro q hq
    rw [hkey, listAdd_freeArea_ne _ _ _ _ (fun h => hq h.symm), setOrder_freeArea]
  refine ⟨ord', h1, h2, ?_, hmems, ?_⟩
  · rw [hkey]
    exact inv_of_free_exit s' (A.erase (i, o)) p' ord' hmid' hstop
  · intro q hq
    by_cases hqk : q = ord'
    · subst hqk
      rw [if_pos rfl, hfa_self, hlists q hq, if_neg (by omega), hp']
    · rw [if_neg hqk, hfa_ne q hqk, hlists q hq]

/-- buddy_alloc preserves the invariant, adding the handed-out block to the
ghost allocation list. -/
theorem inv_alloc (s : BuddyState) (A : List (Nat × Nat)) (size : Int) (a : Nat)
    (s' : BuddyState) (hinv : Inv s A) (h : buddy_alloc s size = (some a, s')) :
    Inv s' ((addrToPage a, (orderFor size).toNat) :: A) := by
  obtain ⟨o, j, idx, rest, ho1, ho2, ho3, hj1, hj2, hl, hemp, ha, hs'⟩ :=
    buddy_alloc_char s size a s' h
  have hto : (orderFor size).toNat = o := by rw [ho1]; simp
  have hmid0 := invMid_of_del s A j idx rest hinv hj2 hl
  have hmid1 : InvMid (listDelInit s idx) A idx (o + (j - o)) := by
    rw [show o + (j - o) = j by omega]
    exact hmid0
  have hmid2 := invMid_splitGo A idx o ho2 (j - o) _ hmid1
  have hfin := inv_of_alloc_exit _ A idx o hmid2
  rw [hs', ha, addrToPage_pageToAddr, hto]
  exact hfin

/-- The state right after the first allocation removes page 0 from the
MAX_ORDER free list: the whole arena is in hand. -/
theorem invMid_init_del : InvMid (listDelInit buddy_init 0) [] 0 MAX_ORDER := by
  have hfb : freeBlocks (listDelInit buddy_init 0) = [] := by decide
  refine ⟨⟨by decide, by decide, by decide⟩, ?_, ?_, ⟨by decide, by decide, dvd_zero _, by decide⟩,
    by decide, by decide, by decide, ?_, ?_, by decide, by decide⟩
  · intro b hb
    rw [hfb] at hb
    exact absurd hb (List.not_mem_nil b)
  · intro b hb
    exact absurd hb (List.not_mem_nil b)
  · intro idx hi o hu hp
    have hpo : (listDelInit buddy_init 0).pageOrder.getD idx (-1) = -1 := by
      show (List.replicate N_PAGES (-1 : Int)).getD idx (-1) = -1
      rw [getD_replicate]
      split <;> rfl
    rw [hpo] at hp
    omega
  · intro b hb
    exact absurd hb (List.not_mem_nil b)

/-- buddy_alloc establishes the invariant from the freshly initialized
state. -/
theorem inv_alloc_init (size : Int) (a : Nat) (s' : BuddyState)
    (h : buddy_alloc buddy_init size = (some a, s')) :
    Inv s' [(addrToPage a, (orderFor size).toNat)] := by
  obtain ⟨o, j, idx, rest, ho1, ho2, ho3, hj1, hj2, hl, hemp, ha, hs'⟩ :=
    buddy_alloc_char buddy_init size a s' h
  have hto : (orderFor size).toNat = o := by rw [ho1]; simp
  have hj20 : j = MAX_ORDER := by
    by_contra hne
    have hjlt : j < MAX_ORDER := by omega
    have hempty : buddy_init.freeArea.getD j [] = [] := by
      show ((List.replicate (MAX_ORDER+1) ([] : List Nat)).set MAX_ORDER [0]).getD j [] = []
      rw [getD_set_ne _ _ (by omega), getD_replicate]
      split <;> rfl
    rw [hempty] at hl
    exact List.noConfusion hl
  subst hj20
  have hl20 : buddy_init.freeArea.getD MAX_ORDER [] = [0] := by decide
  rw [hl20] at hl
  have hidx : idx = 0 := (List.cons.injEq _ _ _ _ ▸ hl).1.symm
  subst hidx
  have hmid1 : InvMid (listDelInit buddy_init 0) [] 0 (o + (MAX_ORDER - o)) := by
    rw [show o + (MAX_ORDER - o) = MAX_ORDER by omega]
    exact invMid_init_del
  have hmid2 := invMid_splitGo [] 0 o ho2 (MAX_ORDER - o) _ hmid1
  have hfin := inv_of_alloc_exit _ [] 0 o hmid2
  rw [hs', ha, addrToPage_pageToAddr, hto]
  exact hfin

/-- Every reachable state is either the freshly initialized one or satisfies
the invariant. -/
theorem reach_inv (s : BuddyState) (A : List (Nat × Nat)) (h : Reach s A) :
    (s = buddy_init ∧ A = []) ∨ Inv s A := by
  induction h with
  | init => exact Or.inl ⟨rfl, rfl⟩
  | allocOk s0 A0 size a s' _ halloc ih =>
    rcases ih with ⟨rfl, rfl⟩ | hinv
    · exact Or.inr (inv_alloc_init size a s' halloc)
    · exact Or.inr (inv_alloc s0 A0 size a s' hinv halloc)
  | allocFail s0 A0 size s' _ halloc ih =>
    have h1 : (buddy_alloc s0 size).1 = none := by rw [halloc]
    have h2 := buddy_alloc_fail_state s0 size h1
    rw [halloc] at h2
    dsimp only at h2
    rw [h2]
    exact ih
  | free s0 A0 i o _ hmem ih =>
    rcases ih with ⟨rfl, rfl⟩ | hinv
    · exact absurd hmem (List.not_mem_nil _)
    · obtain ⟨k, _, _, hinv', _, _⟩ := buddy_free_spec s0 A0 i o hinv hmem
      exact Or.inr hinv'

/-! ### Claim C1: partition invariant -/

/-- C1: partition invariant.  In every state reachable from buddy_init by
well-behaved allocate and free calls, every byte offset of the arena belongs
to exactly one block at exactly one order: counting over all currently free
blocks (one entry per free-list membership) together with all outstanding
allocations, exactly one block covers the byte.  There is no overlap and no
byte unaccounted for. -/
theorem partition_invariant (s : BuddyState) (A : List (Nat × Nat)) (h : Reach s A)
    (a : Nat) (ha : a < 2 ^ MAX_ORDER) :
    (freeBlocks s ++ A).countP
      (fun b => decide (pageToAddr b.1 ≤ a ∧ a < pageToAddr b.1 + 2 ^ b.2)) = 1 := by
  rcases reach_inv s A h with ⟨rfl, rfl⟩ | hinv
  · have hfb : freeBlocks buddy_init = [(0, MAX_ORDER)] := by decide
    rw [hfb, List.append_nil, List.countP_cons, List.countP_nil]
    have hp : pageToAddr (0, MAX_ORDER).1 ≤ a ∧
        a < pageToAddr (0, MAX_ORDER).1 + 2 ^ (0, MAX_ORDER).2 := by
      have h0 : pageToAddr (0, MAX_ORDER).1 = 0 := rfl
      have h1 : (2:Nat) ^ (0, MAX_ORDER).2 = 1048576 := rfl
      have e3 : (2:Nat) ^ MAX_ORDER = 1048576 := rfl
      omega
    rw [if_pos ?hc]
    case hc =>
      exact decide_eq_true hp
  · have ediv : a / PAGE_SIZE = a / 4096 := rfl
    have e3 : (2:Nat) ^ MAX_ORDER = 1048576 := rfl
    have eN : N_PAGES = 256 := rfl
    have hpg : a / PAGE_SIZE < N_PAGES := by
      rw [ediv]
      omega
    have hpart := hinv.partition (a / PAGE_SIZE) hpg
    rw [← hpart]
    apply List.countP_congr
    intro b hb
    have hgood : goodBlock b := by
      rcases List.mem_append.mp hb with h' | h'
      · exact hinv.goodFree b h'
      · exact hinv.goodAlloc b h'
    obtain ⟨g1, g2, g3, g4⟩ := hgood
    clear g3
    have hsz : (2:Nat) ^ b.2 = 2 ^ (b.2 - MIN_ORDER) * 4096 := by
      rw [show (4096:Nat) = 2 ^ 12 from rfl, ← pow_add]
      congr 1
      have eM : MIN_ORDER = 12 := rfl
      omega
    have eP : PAGE_SIZE = 4096 := rfl
    simp only [covers, pageToAddr, decide_eq_true_eq, eP]
    omega

/-- C1 witness: byte 0 of the fresh arena is covered exactly once. -/
theorem partition_invariant_witness :
    (freeBlocks buddy_init ++ []).countP
      (fun b : Nat × Nat =>
        decide (pageToAddr b.1 ≤ 0 ∧ 0 < pageToAddr b.1 + 2 ^ b.2)) = 1 :=
  partition_invariant buddy_init [] Reach.init 0 (by decide)

/-- The first allocation on the fresh arena succeeds and returns byte 0;
Prod eta lets us state this without normalizing the resulting state. -/
theorem first_alloc_eq :
    buddy_alloc buddy_init 4096 = (some 0, (buddy_alloc buddy_init 4096).2) := by
  have h1 : (buddy_alloc buddy_init 4096).1 = some 0 := by decide
  rw [← h1]

/-! ### Claim C9 (amended): allocated blocks keep their order on the descriptor -/

/-- C9 (amended): the descriptor of a block handed out by buddy_alloc does
not carry a "not free" sentinel; it carries exactly the order at which the
block was allocated (buddy_free later reads it back from there), and what
distinguishes an allocated block is its unlinked list node (list_empty true),
not the order field. -/
theorem allocated_descriptor_records_order (s : BuddyState) (A : List (Nat × Nat))
    (h : Reach s A) :
    ∀ b ∈ A, s.pageOrder.getD b.1 (-1) = (b.2 : Int) ∧
      s.nodeUnlinked.getD b.1 false = true := by
  rcases reach_inv s A h with ⟨rfl, rfl⟩ | hinv
  · intro b hb
    exact absurd hb (List.not_mem_nil b)
  · exact hinv.allocFlag

/-- C9 witness: the block allocated by the first allocation carries order
MIN_ORDER in its descriptor while allocated, with its node unlinked. -/
theorem allocated_descriptor_records_order_witness :
    ((buddy_alloc buddy_init 4096).2).pageOrder.getD 0 (-1) = ((MIN_ORDER : Nat) : Int) ∧
    ((buddy_alloc buddy_init 4096).2).nodeUnlinked.getD 0 false = true := by
  have hreach : Reach (buddy_alloc buddy_init 4096).2
      [(addrToPage 0, (orderFor 4096).toNat)] :=
    Reach.allocOk buddy_init [] 4096 0 _ Reach.init first_alloc_eq
  have := allocated_descriptor_records_order _ _ hreach
    (addrToPage 0, (orderFor 4096).toNat) (List.mem_cons_self _ _)
  exact this

/-! ### Claim C3: allocation guarantee -/

/-- C3: on every reachable state, a successful buddy_alloc returns the base
address of a block of exactly 2^order bytes where order = orderFor size, the
offset from the arena base is a multiple of 2^order (natural alignment), the
block lies inside the arena, and it is disjoint from every other currently
live allocation. -/
theorem alloc_guarantee (s : BuddyState) (A : List (Nat × Nat)) (size : Int) (a : Nat)
    (s' : BuddyState) (hreach : Reach s A) (h : buddy_alloc s size = (some a, s')) :
    ∃ o : Nat, orderFor size = (o : Int) ∧ MIN_ORDER ≤ o ∧ o ≤ MAX_ORDER ∧
      2 ^ o ∣ a ∧ a + 2 ^ o ≤ 2 ^ MAX_ORDER ∧
      ∀ b ∈ A, pageToAddr b.1 + 2 ^ b.2 ≤ a ∨ a + 2 ^ o ≤ pageToAddr b.1 := by
  have hreach' : Reach s' ((addrToPage a, (orderFor size).toNat) :: A) :=
    Reach.allocOk s A size a s' hreach h
  have hinv0 : Inv s' ((addrToPage a, (orderFor size).toNat) :: A) := by
    rcases reach_inv _ _ hreach' with ⟨_, habs⟩ | hinv'
    · exact absurd habs (List.cons_ne_nil _ _)
    · exact hinv'
  obtain ⟨o, j, idx, rest, ho1, ho2, ho3, _, _, _, _, ha, _⟩ := buddy_alloc_char s size a s' h
  have hto : (orderFor size).toNat = o := by rw [ho1]; simp
  rw [hto] at hinv0
  have hgoodh : goodBlock (addrToPage a, o) := hinv0.goodAlloc _ (List.mem_cons_self _ _)
  obtain ⟨g1, g2, g3, g4⟩ := hgoodh
  dsimp only at g1 g2 g3 g4
  have e1 : PAGE_SIZE = 4096 := rfl
  have e2 : N_PAGES = 256 := rfl
  have e3 : (2:Nat) ^ MAX_ORDER = 1048576 := rfl
  have eM : MIN_ORDER = 12 := rfl
  have haidx : a = pageToAddr (addrToPage a) := by rw [ha, addrToPage_pageToAddr]
  have hsz : (2:Nat) ^ o = 2 ^ (o - MIN_ORDER) * PAGE_SIZE := by
    rw [PAGE_SIZE, ← pow_add]
    congr 1
    omega
  refine ⟨o, ho1, ho2, ho3, ?_, ?_, ?_⟩
  · obtain ⟨m, hm⟩ := g3
    refine ⟨m, ?_⟩
    rw [haidx, pageToAddr, hm, hsz]
    ring
  · rw [haidx, pageToAddr, hsz, e1] at *
    omega
  · intro b hbA
    by_contra hcon
    push_neg at hcon
    obtain ⟨hc1, hc2⟩ := hcon
    have hgb : goodBlock b := hinv0.goodAlloc b (List.mem_cons_of_mem _ hbA)
    obtain ⟨f1, f2, f3, f4⟩ := hgb
    have hszb : (2:Nat) ^ b.2 = 2 ^ (b.2 - MIN_ORDER) * PAGE_SIZE := by
      rw [PAGE_SIZE, ← pow_add]
      congr 1
      omega
    rw [haidx] at hc1 hc2
    rw [pageToAddr, pageToAddr, hszb, e1] at hc1
    rw [pageToAddr, pageToAddr, hsz, e1] at hc2
    have hcov1 : covers (addrToPage a, o) (max (addrToPage a) b.1) = true := by
      rw [covers_iff]
      dsimp only
      omega
    have hcov2 : covers b (max (addrToPage a) b.1) = true := by
      rw [covers_iff]
      omega
    have hpg : max (addrToPage a) b.1 < N_PAGES := by
      have hpos : 0 < (2:Nat) ^ (b.2 - MIN_ORDER) := Nat.pos_pow_of_pos _ (by omega)
      omega
    have hpart := hinv0.partition (max (addrToPage a) b.1) hpg
    have h1 : 0 < A.countP (fun bb => covers bb (max (addrToPage a) b.1)) :=
      List.countP_pos_iff.mpr ⟨b, hbA, hcov2⟩
    rw [List.countP_append, List.countP_cons, if_pos hcov1] at hpart
    omega

/-- C3 witness: the first allocation on the fresh arena. -/
theorem alloc_guarantee_witness :
    ∃ o : Nat, orderFor 4096 = (o : Int) ∧ MIN_ORDER ≤ o ∧ o ≤ MAX_ORDER ∧
      2 ^ o ∣ 0 ∧ 0 + 2 ^ o ≤ 2 ^ MAX_ORDER ∧
      ∀ b ∈ ([] : List (Nat × Nat)),
        pageToAddr b.1 + 2 ^ b.2 ≤ 0 ∨ 0 + 2 ^ o ≤ pageToAddr b.1 :=
  alloc_guarantee buddy_init [] 4096 0 (buddy_alloc buddy_init 4096).2
    Reach.init first_alloc_eq

/-! ### Claim C6: no false merge -/

/-- C6: in every reachable state, releasing a block never merges across two
buddies recorded at different orders: each block consumed by the coalescing
loop is the exact address-buddy, at the loop's current order, of the current
chain block, and that buddy was free at exactly that order; every other free
block survives the release in its own order's free list. -/
theorem no_false_merge (s : BuddyState) (A : List (Nat × Nat)) (i o : Nat)
    (hreach : Reach s A) (hmem : (i, o) ∈ A) :
    ∃ k, o ≤ k ∧ k ≤ MAX_ORDER ∧
      (∀ q, o ≤ q → q < k → buddyIdx (alignB i q) q ∈ s.freeArea.getD q []) ∧
      (∀ j q, q ≤ MAX_ORDER → j ∈ s.freeArea.getD q [] →
        j ∈ (buddy_free s (pageToAddr i)).freeArea.getD q [] ∨
          (o ≤ q ∧ q < k ∧ j = buddyIdx (alignB i q) q)) := by
  have hinv : Inv s A := by
    rcases reach_inv s A hreach with ⟨rfl, rfl⟩ | hinv
    · exact absurd hmem (List.not_mem_nil _)
    · exact hinv
  obtain ⟨k, hk1, hk2, _, hmems, hlists⟩ := buddy_free_spec s A i o hinv hmem
  refine ⟨k, hk1, hk2, hmems, ?_⟩
  intro j q hq hjmem
  rw [hlists q hq]
  by_cases hqk : q = k
  · rw [if_pos hqk]
    exact Or.inl (List.mem_cons_of_mem _ hjmem)
  · rw [if_neg hqk]
    by_cases hcase : o ≤ q ∧ q < k
    · rw [if_pos hcase]
      by_cases hjb : j = buddyIdx (alignB i q) q
      · exact Or.inr ⟨hcase.1, hcase.2, hjb⟩
      · exact Or.inl ((List.mem_erase_of_ne hjb).mpr hjmem)
    · rw [if_neg hcase]
      exact Or.inl hjmem

/-- C6 witness: releasing the first allocated block. -/
theorem no_false_merge_witness :
    ∃ k, 12 ≤ k ∧ k ≤ MAX_ORDER ∧
      (∀ q, 12 ≤ q → q < k →
        buddyIdx (alignB 0 q) q ∈ ((buddy_alloc buddy_init 4096).2).freeArea.getD q []) ∧
      (∀ j q, q ≤ MAX_ORDER → j ∈ ((buddy_alloc buddy_init 4096).2).freeArea.getD q [] →
        j ∈ (buddy_free (buddy_alloc buddy_init 4096).2 (pageToAddr 0)).freeArea.getD q [] ∨
          (12 ≤ q ∧ q < k ∧ j = buddyIdx (alignB 0 q) q)) := by
  have hreach : Reach (buddy_alloc buddy_init 4096).2
      [(addrToPage 0, (orderFor 4096).toNat)] :=
    Reach.allocOk buddy_init [] 4096 0 _ Reach.init first_alloc_eq
  exact no_false_merge _ _ 0 12 hreach (by decide)

/-! ### Claim C2: round trip with complete coalescing -/

/-- Two free-area tables of the fixed length that agree bucket by bucket are
equal. -/
theorem freeArea_ext (l1 l2 : List (List Nat)) (hl1 : l1.length = MAX_ORDER + 1)
    (hl2 : l2.length = MAX_ORDER + 1)
    (h : ∀ q, q ≤ MAX_ORDER → l1.getD q [] = l2.getD q []) : l1 = l2 := by
  apply List.ext_getElem?
  intro n
  by_cases hn : n < MAX_ORDER + 1
  · have h1 : n < l1.length := by omega
    have h2 : n < l2.length := by omega
    have e := h n (by omega)
    rw [List.getD_eq_getElem?_getD, List.getD_eq_getElem?_getD,
      List.getElem?_eq_getElem h1, List.getElem?_eq_getElem h2] at e
    simp only [Option.getD_some] at e
    rw [List.getElem?_eq_getElem h1, List.getElem?_eq_getElem h2, e]
  · rw [List.getElem?_eq_none (by omega : l1.length ≤ n),
      List.getElem?_eq_none (by omega : l2.length ≤ n)]

/-- Round trip: allocate immediately followed by free of the returned
address restores the free-area table exactly. -/
theorem roundtrip_freeArea (s : BuddyState) (A : List (Nat × Nat)) (size : Int) (a : Nat)
    (s' : BuddyState) (hreach : Reach s A) (h : buddy_alloc s size = (some a, s')) :
    (buddy_free s' a).freeArea = s.freeArea := by
  obtain ⟨o, j, idx, rest, ho1, ho2, ho3, hj1, hj2, hl, hemp, ha, hs'⟩ :=
    buddy_alloc_char s size a s' h
  have hto : (orderFor size).toNat = o := by rw [ho1]; simp
  obtain ⟨hdims, hGF, hPart, hMax, hinv'⟩ :
      Dims s ∧ (∀ b ∈ freeBlocks s, goodBlock b) ∧
      (∀ pg, pg < N_PAGES → (freeBlocks s ++ A).countP (fun b => covers b pg) = 1) ∧
      (∀ q, q < MAX_ORDER → ∀ i ∈ s.freeArea.getD q [],
        buddyIdx i q ∉ s.freeArea.getD q []) ∧
      Inv s' ((idx, o) :: A) := by
    rcases reach_inv s A hreach with ⟨rfl, rfl⟩ | hinv
    · have hfb : freeBlocks buddy_init = [(0, MAX_ORDER)] := by decide
      refine ⟨⟨by decide, by decide, by decide⟩, ?_, by decide, by decide, ?_⟩
      · intro b hb
        rw [hfb, List.mem_singleton] at hb
        subst hb
        exact ⟨by decide, by decide, dvd_zero _, by decide⟩
      · have hthis := inv_alloc_init size a s' h
        rw [ha, addrToPage_pageToAddr, hto] at hthis
        exact hthis
    · refine ⟨hinv.dims, hinv.goodFree, hinv.partition, hinv.maxCo, ?_⟩
      have hthis := inv_alloc s A size a s' hinv h
      rw [ha, addrToPage_pageToAddr, hto] at hthis
      exact hthis
  have hmemidx : idx ∈ s.freeArea.getD j [] := by
    rw [hl]
    exact List.mem_cons_self _ _
  have hgoodj : goodBlock (idx, j) :=
    hGF _ ((mem_freeBlocks s idx j).mpr ⟨hj2, hmemidx⟩)
  have hidxlt : idx < N_PAGES := by
    obtain ⟨g1, _, _, g4⟩ := hgoodj
    dsimp only at g4
    have : 0 < (2:Nat) ^ (j - MIN_ORDER) := Nat.pos_pow_of_pos _ (by omega)
    omega
  obtain ⟨k, hk1, hk2, hinvres, hmems, hlists⟩ :=
    buddy_free_spec s' ((idx, o) :: A) idx o hinv' (List.mem_cons_self _ _)
  have honly : ∀ q, q ≤ MAX_ORDER → q ≠ j → idx ∉ s.freeArea.getD q [] :=
    mem_only_list s A hGF
      (fun pg hpg => le_of_eq (hPart pg hpg)) idx j hj2 hmemidx
  have hdel_q : ∀ q, q ≤ MAX_ORDER → q ≠ j →
      (listDelInit s idx).freeArea.getD q [] = s.freeArea.getD q [] := by
    intro q hq hqj
    rw [listDelInit_freeArea, List.erase_of_not_mem (honly q hq hqj)]
  have hdel_j : (listDelInit s idx).freeArea.getD j [] = rest := by
    rw [listDelInit_freeArea, hl, List.erase_cons_head]
  obtain ⟨_, hIn, hOut, _⟩ :=
    splitGo_char idx hidxlt (j - o) (listDelInit s idx) o
      (hdims.listDelInit idx) ho2 (by omega)
  rw [show o + (j - o) = j from by omega] at hIn hOut
  have hs'_q : ∀ q, q ≤ MAX_ORDER → s'.freeArea.getD q [] =
      if o ≤ q ∧ q < j then buddyIdx idx q :: s.freeArea.getD q []
      else if q = j then rest else s.freeArea.getD q [] := by
    intro q hq
    rw [hs', setOrder_freeArea, split]
    by_cases h1 : o ≤ q ∧ q < j
    · rw [if_pos h1, (hIn q h1.1 h1.2).1, hdel_q q hq (by omega)]
    · rw [if_neg h1]
      by_cases h2 : q = j
      · subst h2
        rw [hOut q (Or.inr (Nat.le_refl _)), hdel_j, if_pos rfl]
      · rw [hOut q (by omega), hdel_q q hq h2, if_neg h2]
  have halignq : ∀ q, q ≤ j → alignB idx q = idx := by
    intro q hq
    refine alignB_self idx q (dvd_trans (pow_dvd_pow 2 ?_) hgoodj.2.2.1)
    have : MIN_ORDER = 12 := rfl
    omega
  have hkj : k ≤ j := by
    by_contra hcon
    have hjk : j < k := by omega
    have hb := hmems j hj1 hjk
    rw [halignq j (Nat.le_refl _), hs'_q j hj2, if_neg (by omega), if_pos rfl] at hb
    have hbs : buddyIdx idx j ∈ s.freeArea.getD j [] := by
      rw [hl]
      exact List.mem_cons_of_mem _ hb
    exact hMax j (by omega) idx hmemidx hbs
  have hjk : j ≤ k := by
    by_contra hcon
    have hkltj : k < j := by omega
    have hres := hlists k (by omega)
    rw [if_pos rfl, halignq k (by omega), hs'_q k (by omega), if_pos ⟨hk1, hkltj⟩] at hres
    have h1 : idx ∈ (buddy_free s' (pageToAddr idx)).freeArea.getD k [] := by
      rw [hres]
      exact List.mem_cons_self _ _
    have h2 : buddyIdx idx k ∈ (buddy_free s' (pageToAddr idx)).freeArea.getD k [] := by
      rw [hres]
      exact List.mem_cons_of_mem _ (List.mem_cons_self _ _)
    exact hinvres.maxCo k (by omega) idx h1 h2
  have hkey : k = j := by omega
  subst hkey
  have hfin : ∀ q, q ≤ MAX_ORDER →
      (buddy_free s' (pageToAddr idx)).freeArea.getD q [] = s.freeArea.getD q [] := by
    intro q hq
    rw [hlists q hq]
    by_cases h1 : q = k
    · subst h1
      rw [if_pos rfl, halignq q hkj, hs'_q q hq, if_neg (by omega), if_pos rfl, ← hl]
    · rw [if_neg h1]
      by_cases h2 : o ≤ q ∧ q < k
      · rw [if_pos h2, halignq q (by omega), hs'_q q hq, if_pos h2, List.erase_cons_head]
      · rw [if_neg h2, hs'_q q hq, if_neg h2, if_neg h1]
  rw [ha]
  exact freeArea_ext _ _ hinvres.dims.2.2 hdims.2.2 hfin

/-- C2: round trip with complete coalescing.  First part: on any reachable
state, a successful allocate immediately followed by a free of the returned
address leaves every free list with exactly the members it had before the
allocate (set equality — in fact the lists coincide).  Second part: after
any well-behaved release completes, no free block has a currently-free buddy
at its own order left unmerged. -/
theorem roundtrip_and_complete_coalescing :
    (∀ (s : BuddyState) (A : List (Nat × Nat)) (size : Int) (a : Nat) (s' : BuddyState),
      Reach s A → buddy_alloc s size = (some a, s') →
      ∀ q x, x ∈ (buddy_free s' a).freeArea.getD q [] ↔ x ∈ s.freeArea.getD q []) ∧
    (∀ (s : BuddyState) (A : List (Nat × Nat)) (i o : Nat),
      Reach s A → (i, o) ∈ A →
      ∀ q, q < MAX_ORDER → ∀ x ∈ (buddy_free s (pageToAddr i)).freeArea.getD q [],
        buddyIdx x q ∉ (buddy_free s (pageToAddr i)).freeArea.getD q []) := by
  constructor
  · intro s A size a s' hreach h q x
    rw [roundtrip_freeArea s A size a s' hreach h]
  · intro s A i o hreach hmem q hq x hx
    have hinv : Inv s A := by
      rcases reach_inv s A hreach with ⟨rfl, rfl⟩ | hinv
      · exact absurd hmem (List.not_mem_nil _)
      · exact hinv
    obtain ⟨k, _, _, hinvres, _, _⟩ := buddy_free_spec s A i o hinv hmem
    exact hinvres.maxCo q hq x hx

/-- C2 witness: allocate then free on the fresh arena, and complete
coalescing after releasing the first allocation. -/
theorem roundtrip_and_complete_coalescing_witness :
    (∀ q x, x ∈ (buddy_free (buddy_alloc buddy_init 4096).2 0).freeArea.getD q [] ↔
      x ∈ buddy_init.freeArea.getD q []) ∧
    (∀ q, q < MAX_ORDER →
      ∀ x ∈ (buddy_free (buddy_alloc buddy_init 4096).2 (pageToAddr 0)).freeArea.getD q [],
        buddyIdx x q ∉
          (buddy_free (buddy_alloc buddy_init 4096).2 (pageToAddr 0)).freeArea.getD q []) := by
  constructor
  · exact roundtrip_and_complete_coalescing.1 buddy_init [] 4096 0 _ Reach.init first_alloc_eq
  · exact roundtrip_and_complete_coalescing.2 (buddy_alloc buddy_init 4096).2
      [(addrToPage 0, (orderFor 4096).toNat)] 0 12
      (Reach.allocOk buddy_init [] 4096 0 _ Reach.init first_alloc_eq) (by decide)

end BuddyAlloc
